import Mathlib

/-!
Verification of the Atlas Model simulation engine against its specification.

Shallow embedding of the Python sources:
  * `src/algorithms/environment_drivers.py`  (SineDriver, CompositeDriver)
  * `src/algorithms/creation_protocols.py`   (moving_slope, detect_births, evaluate_gates, ...)
  * `src/algorithms/coherence_metrics.py`    (order_parameter, poly_slope, wrap_angle)
  * `src/sims/crystallization_points.py`     (_watts_strogatz, anchor promotion/decay)
  * `src/sims/creation.py`                   (add_edge, edge-birth loop)
  * `src/sims/multilayer_resonance.py`       (make_default_layers, euler_step_multilayer)

Python floats are modelled by `ℝ` (and by `ℚ` for the purely arithmetic
series pipeline, where every operation used is exact field arithmetic),
NumPy arrays by lists or functions, and every random draw by an explicit
stream parameter (one value per draw, in draw order).
-/

open Real Complex


/-! ### Definitions (shallow embedding of the sources) -/

/-- Python's `%` on floats: the result takes the sign of the divisor,
`x % y = x - y * floor (x / y)`. -/
noncomputable def pymod (x y : ℝ) : ℝ := x - y * ⌊x / y⌋

/-- `environment_drivers.SineDriver`: frequency, amplitude and initial phase. -/
structure SineDriver where
  freq_hz : ℝ
  amplitude : ℝ
  phase0 : ℝ

/-- `SineDriver.phase_at`: `(2π f t + phase0) % 2π` with `t = t_index * dt * time_scale`. -/
noncomputable def SineDriver.phase_at (d : SineDriver) (t_index : ℕ) (dt time_scale : ℝ) : ℝ :=
  pymod (2 * π * d.freq_hz * ((t_index : ℝ) * dt * time_scale) + d.phase0) (2 * π)

/-- `environment_drivers.CompositeDriver`: a list of sine components plus timing. -/
structure CompositeDriver where
  drivers : List SineDriver
  dt : ℝ
  time_scale : ℝ

/-- The resultant phasor `Z = Σ_d amplitude_d * exp(i * phase_d(t))` of
`CompositeDriver.phase_at`. -/
noncomputable def CompositeDriver.resultant (c : CompositeDriver) (t_index : ℕ) : ℂ :=
  (c.drivers.map (fun d =>
    (d.amplitude : ℂ) * Complex.exp ((d.phase_at t_index c.dt c.time_scale : ℝ) * Complex.I))).sum

/-- The `1e-12` magnitude tolerance of `CompositeDriver.phase_at`. -/
noncomputable def phasorTol : ℝ := 1 / 10 ^ 12

/-- `CompositeDriver.phase_at`: `angle(Z)` unless `|Z| < 1e-12`, in which case `0`. -/
noncomputable def CompositeDriver.phase_at (c : CompositeDriver) (t_index : ℕ) : ℝ :=
  if Complex.abs (c.resultant t_index) < phasorTol then 0
  else Complex.arg (c.resultant t_index)

/-- `CompositeDriver.omega_at`: amplitude-weighted mean of component angular
frequencies, guarded by `max(den, 1e-12)`. -/
noncomputable def CompositeDriver.omega_at (c : CompositeDriver) (_t_index : ℕ) : ℝ :=
  ((c.drivers.map (fun d => d.amplitude * (2 * π * d.freq_hz))).sum) /
    max ((c.drivers.map (fun d => d.amplitude)).sum) phasorTol

/-! ## Windowed least-squares slope (`moving_slope`, `poly_slope`) over `ℚ` -/

/-- Least-squares slope of `ys` against `x = 0, 1, ..., len-1`
(the degree-1 `np.polyfit` slope in closed form). -/
def lsqSlope (ys : List ℚ) : ℚ :=
  let w : ℚ := ys.length
  let xs : List ℚ := (List.range ys.length).map (fun i => (i : ℚ))
  let Sx := xs.sum
  let Sy := ys.sum
  let Sxy := ((xs.zip ys).map (fun p => p.1 * p.2)).sum
  let Sxx := (xs.map (fun x => x * x)).sum
  (w * Sxy - Sx * Sy) / (w * Sxx - Sx * Sx)

/-- `creation_protocols.moving_slope`: `None` if `len(y) < w or w < 2`, else the
least-squares slope of the last `w` samples. -/
def moving_slope (y : List ℚ) (w : ℕ) : Option ℚ :=
  if y.length < w ∨ w < 2 then none
  else some (lsqSlope (y.drop (y.length - w)))

/-- `coherence_metrics.poly_slope`: `None` if `w < 2 or len(y) < w`, else the
least-squares slope of the last `w` samples. -/
def poly_slope (y : List ℚ) (w : ℕ) : Option ℚ :=
  if w < 2 ∨ y.length < w then none
  else some (lsqSlope (y.drop (y.length - w)))

/-! ## C9: the Kuramoto order parameter -/

/-- Sum of unit phasors `Σ_k exp(i θ_k)` (the unnormalized numerator of
`z.mean()` in `order_parameter`). -/
noncomputable def phasorSum (θ : List ℝ) : ℂ :=
  (θ.map (fun x : ℝ => Complex.exp ((x : ℂ) * Complex.I))).sum

/-- `coherence_metrics.order_parameter` (identical in `creation_protocols`):
magnitude and angle of the mean unit phasor. -/
noncomputable def order_parameter (θ : List ℝ) : ℝ × ℝ :=
  (Complex.abs (phasorSum θ / (θ.length : ℂ)), Complex.arg (phasorSum θ / (θ.length : ℂ)))

def detectAux (d : ℕ) : ℕ → List Bool → List ℕ
  | _, [] => []
  | pos, false :: rest => detectAux d (pos + 1) rest
  | pos, true :: rest =>
      (if d ≤ 1 + (rest.takeWhile (fun b => b)).length then [pos] else []) ++
        detectAux d (pos + 1 + (rest.takeWhile (fun b => b)).length)
          (rest.dropWhile (fun b => b))
termination_by _ l => l.length
decreasing_by
  · simp
  · simp only [List.length_cons]
    refine Nat.lt_succ_of_le ?_
    conv_rhs => rw [← List.takeWhile_append_dropWhile (fun b => b) rest]
    rw [List.length_append]
    exact Nat.le_add_left _ _

def birthSpec (above : List Bool) (d i : ℕ) : Prop :=
  above.getD i false = true ∧ (i = 0 ∨ above.getD (i - 1) false = false) ∧
    ∀ k < d, above.getD (i + k) false = true

-- decomposition facts
example (rest : List Bool) :
    rest = List.replicate (rest.takeWhile (fun b => b)).length true ++ rest.dropWhile (fun b => b) := by
  conv_lhs => rw [← List.takeWhile_append_dropWhile (fun b => b) rest]
  congr 1
  rw [List.eq_replicate_iff]
  exact ⟨rfl, fun x hx => by simpa using List.mem_takeWhile_imp hx⟩

example (l : List Bool) (h : (l.dropWhile (fun b => b)).getD 0 false = true) : False := by
  cases htl : l.dropWhile (fun b => b) with
  | nil => rw [htl] at h; simp at h
  | cons x xs =>
    have hx := List.head?_dropWhile_not (fun b => b) l
    rw [htl] at hx
    simp at hx
    rw [htl] at h
    simp [hx] at h

/-- The above-threshold indicator series `R_series >= threshold`. -/
def aboveList (R : List ℚ) (thr : ℚ) : List Bool := R.map fun x => decide (thr ≤ x)

/-- `creation_protocols.detect_births`. -/
def detect_births (R : List ℚ) (threshold : ℚ) (min_duration : ℕ) : List ℕ :=
  detectAux min_duration 0 (aboveList R threshold)

/-- The synthetic series of the spec: `R(t) = 0.5` for `t < 100`, `0.95` for
`100 ≤ t ≤ 300`. -/
def demoR : List ℚ := (List.range 301).map (fun t => if t < 100 then 1 / 2 else 19 / 20)

/-! ## C8: the multi-gate verdict detector `evaluate_gates` -/

/-- `creation_protocols.wrap_angle`: wrap to `[-π, π]` via `(x + π) % 2π - π`. -/
noncomputable def wrap_angle (x : ℝ) : ℝ := pymod (x + π) (2 * π) - π

/-- `creation_protocols.anchor_persistence`: fraction of nodes within `eps` of
the last row's mean phase over the whole trailing window; `0` when fewer than
`window` rows exist. -/
noncomputable def anchor_persistence (phases_hist : List (List ℝ)) (eps : ℝ) (window : ℕ) : ℝ :=
  if phases_hist.length < window then 0
  else
    let tail := phases_hist.drop (phases_hist.length - window)
    let lastRow := tail.getLastD []
    let psi := (order_parameter lastRow).2
    let N := lastRow.length
    (((Finset.range N).filter fun j =>
        ∀ row ∈ tail, |wrap_angle (row.getD j 0 - psi)| ≤ eps).card : ℝ) / N

/-- `R_series[-1]` with the `0.0` default for an empty series. -/
def r_now (R : List ℚ) : ℚ := R.getLastD 0

/-- `np.diff` of the birth indices. -/
def diffGaps (indices : List ℕ) : List ℚ :=
  (indices.zip indices.tail).map fun p => (p.2 : ℚ) - (p.1 : ℚ)

/-- `np.percentile(gaps, 50)`: the median with linear interpolation. -/
def percentile50 (l : List ℚ) : ℚ :=
  let s := l.mergeSort (fun a b => a ≤ b)
  if l.length % 2 = 1 then s.getD (l.length / 2) 0
  else (s.getD (l.length / 2 - 1) 0 + s.getD (l.length / 2) 0) / 2

/-- `creation_protocols.is_clustered`. -/
def is_clustered (indices : List ℕ) (max_gaps : ℕ) : Prop :=
  2 ≤ indices.length ∧
    (max_gaps ≤ ((diffGaps indices).filter fun g =>
        g ≤ percentile50 (diffGaps indices)).length ∨
      3 ≤ indices.length)

/-- `creation_protocols.GateConfig`. -/
structure GateConfig where
  r_trend_window : ℕ
  r_min : ℚ
  r_trend_min_slope : ℚ
  gap_trend_window : ℕ
  gap_trend_max_slope : ℚ
  anchor_eps : ℝ
  anchor_window : ℕ
  anchor_min_fraction : ℝ
  birth_r_threshold : ℚ
  birth_min_duration : ℕ
  birth_cluster_max_gaps : ℕ
  min_births_for_cluster : ℕ

/-- Gate (1), coherence rising: defined slope of the last `r_trend_window`
samples of `R` at least `r_trend_min_slope`, and current `R` at least `r_min`. -/
def coherence_rising_gate (R : List ℚ) (cfg : GateConfig) : Prop :=
  ∃ m, moving_slope R cfg.r_trend_window = some m ∧
    cfg.r_trend_min_slope ≤ m ∧ cfg.r_min ≤ r_now R

/-- Gate (2), gap narrowing: defined slope of `|gap|` at most the (negative)
`gap_trend_max_slope`. -/
def gap_narrowing_gate (gap : List ℚ) (cfg : GateConfig) : Prop :=
  ∃ m, moving_slope (gap.map fun x => |x|) cfg.gap_trend_window = some m ∧
    m ≤ cfg.gap_trend_max_slope

/-- Gate (3), anchor persistence. -/
def anchors_ok_gate (ph : List (List ℝ)) (cfg : GateConfig) : Prop :=
  cfg.anchor_min_fraction ≤ anchor_persistence ph cfg.anchor_eps cfg.anchor_window

/-- Gate (4), birth clustering. -/
def births_ok_gate (R : List ℚ) (cfg : GateConfig) : Prop :=
  cfg.min_births_for_cluster
      ≤ (detect_births R cfg.birth_r_threshold cfg.birth_min_duration).length ∧
    is_clustered (detect_births R cfg.birth_r_threshold cfg.birth_min_duration)
      cfg.birth_cluster_max_gaps

/-- The per-gate booleans and the overall verdict of `evaluate_gates`. -/
structure GateResult where
  coherence_rising : Prop
  gap_narrowing : Prop
  anchors_ok : Prop
  births_ok : Prop
  sovereignty : Prop
  creation : Prop

/-- `creation_protocols.evaluate_gates`. -/
def evaluate_gates (R_series gap_series : List ℚ) (phases_hist : List (List ℝ))
    (cfg : GateConfig) (sovereignty_ok : Bool) : GateResult where
  coherence_rising := coherence_rising_gate R_series cfg
  gap_narrowing := gap_narrowing_gate gap_series cfg
  anchors_ok := anchors_ok_gate phases_hist cfg
  births_ok := births_ok_gate R_series cfg
  sovereignty := sovereignty_ok = true
  creation := coherence_rising_gate R_series cfg ∧ gap_narrowing_gate gap_series cfg ∧
    anchors_ok_gate phases_hist cfg ∧ births_ok_gate R_series cfg ∧ sovereignty_ok = true

/-! ## C2, C6: anchor promotion and half-life decay
(`crystallization_points.simulate`, identically `creation.simulate`).

Phases and resources enter the promotion/decay logic only through the
per-step local-coherence values written into the sliding buffer and the
per-node resource levels read at that step; the embedding therefore takes
those values (`Rloc`, `r`) and the decay draws (`u`, one uniform draw per
node per step from the run's generator) as explicit stream parameters and
embeds lines 99-123 of `crystallization_points.py` verbatim. -/

/-- Parameters of the crystallization sub-model (`CrystalConfig` fields used
by the promotion/decay block). -/
structure CrystalParams where
  window : ℕ
  thresh_R_local : ℝ
  thresh_resource : ℝ
  anchor_half_life : ℕ
  starve_threshold : ℝ

/-- Per-run anchor state: the sliding local-coherence buffer `Rbuf` (row index,
node index), the circular write pointer, the warm-up counter, and the per-node
anchor flags and ages. -/
structure CrystalState where
  Rbuf : ℕ → ℕ → ℝ
  wptr : ℕ
  warm : ℕ
  anchor : ℕ → Bool
  age : ℕ → ℕ

/-- `Rbuf[wptr] = Rloc; wptr = (wptr+1) % window; warm = min(warm+1, window)`. -/
noncomputable def recordStep (W : ℕ) (Rloc : ℕ → ℝ) (s : CrystalState) : CrystalState :=
  { s with
    Rbuf := Function.update s.Rbuf s.wptr Rloc
    wptr := (s.wptr + 1) % W
    warm := min (s.warm + 1) W }

/-- `Rbuf.mean(axis=0)`: the windowed mean local coherence of node `i`. -/
noncomputable def RmeanLocal (W : ℕ) (Rbuf : ℕ → ℕ → ℝ) (i : ℕ) : ℝ :=
  (∑ t ∈ Finset.range W, Rbuf t i) / W

/-- `to_anchor = (~is_anchor) & (Rmean_local >= thresh_R_local) & (r >= thresh_resource)`. -/
noncomputable def toAnchor (p : CrystalParams) (Rbuf : ℕ → ℕ → ℝ) (r : ℕ → ℝ)
    (anchor : ℕ → Bool) (i : ℕ) : Bool :=
  !anchor i && decide (p.thresh_R_local ≤ RmeanLocal p.window Rbuf i)
    && decide (p.thresh_resource ≤ r i)

/-- The crystallization-detection block: once the buffer is warm
(`warm == window`), promote the eligible nodes and reset their age. -/
noncomputable def promoteStep (p : CrystalParams) (r : ℕ → ℝ) (s : CrystalState) :
    CrystalState :=
  if s.warm = p.window then
    { s with
      anchor := fun i => s.anchor i || toAnchor p s.Rbuf r s.anchor i
      age := fun i => if toAnchor p s.Rbuf r s.anchor i then 0 else s.age i }
  else s

/-- `anchor_age[is_anchor] += 1` (ages are bumped for every anchor). -/
noncomputable def ageAfterInc (s : CrystalState) (i : ℕ) : ℕ :=
  if s.anchor i then s.age i + 1 else s.age i

/-- `decay_prob`: `1 - 0.5 ** (anchor_age/hl)` for starving anchors
(`is_anchor & (r < starve_threshold)`), `0` otherwise, with
`hl = max(1, anchor_half_life)` and the age already incremented. -/
noncomputable def decayProb (p : CrystalParams) (r : ℕ → ℝ) (s : CrystalState) (i : ℕ) : ℝ :=
  if s.anchor i && decide (r i < p.starve_threshold)
  then 1 - (1 / 2 : ℝ) ^ ((ageAfterInc s i : ℝ) / ((max 1 p.anchor_half_life : ℕ) : ℝ))
  else 0

/-- The anchor-decay block: `drop = rng.random(N) < decay_prob;
is_anchor[drop] = False; anchor_age[drop] = 0`, with `u i` the node's uniform
draw. -/
noncomputable def decayStep (p : CrystalParams) (r u : ℕ → ℝ) (s : CrystalState) :
    CrystalState :=
  { s with
    anchor := fun i => if u i < decayProb p r s i then false else s.anchor i
    age := fun i => if u i < decayProb p r s i then 0 else ageAfterInc s i }

/-- One loop iteration of the anchor sub-model: record local coherence, run the
promotion check, then the decay check. -/
noncomputable def crystalStep (p : CrystalParams) (Rloc r u : ℕ → ℝ) (s : CrystalState) :
    CrystalState :=
  decayStep p r u (promoteStep p r (recordStep p.window Rloc s))

/-- Initial anchor state: empty buffer, cold counter, no anchors, zero ages. -/
def crystalInit : CrystalState :=
  ⟨fun _ _ => 0, 0, 0, fun _ => false, fun _ => 0⟩

/-- The anchor sub-model run: step `t` consumes the step-`t` slices of the
local-coherence, resource and uniform-draw streams. -/
noncomputable def crystalRun (p : CrystalParams) (Rloc r u : ℕ → ℕ → ℝ) : ℕ → CrystalState
  | 0 => crystalInit
  | t + 1 => crystalStep p (Rloc t) (r t) (u t) (crystalRun p Rloc r u t)

/-! ## C5: edge births in `creation.simulate`
(`add_edge` and the growth block, lines 261-280).

Eligibility reads the windowed local coherence and the resource vector; both
enter only as per-node values at the step, so they are stream parameters.
Each `rng` draw is modelled by a stream value: the raw batch-size draw (in the
source an integer in `[grow_batch_min, grow_batch_max]`), and the index draws
used by `rng.choice` on the eligible set and on the candidate pool. -/

/-- `creation.CreationConfig`, restricted to the fields the growth block reads. -/
structure GrowParams where
  N : ℕ
  grow_every : ℕ
  grow_budget : ℕ
  grow_require_R_local : ℝ
  grow_require_r : ℝ
  window : ℕ

/-- Growth-relevant state: adjacency sets, remaining budget, birth events. -/
structure GrowState where
  nbrs : ℕ → Finset ℕ
  edgesLeft : ℕ
  events : List (ℕ × ℕ × ℕ)

/-- `creation.add_edge`: insert the undirected edge `(u, v)` unless it exists
or is a self-loop. -/
def add_edge (u v : ℕ) (nbrs : ℕ → Finset ℕ) : ℕ → Finset ℕ :=
  if v ∉ nbrs u ∧ u ≠ v then
    Function.update (Function.update nbrs u (insert v (nbrs u))) v (insert u (nbrs v))
  else nbrs

/-- `rng.choice` from a finite set, as an index draw into its sorted listing. -/
noncomputable def chooseFrom (s : Finset ℕ) (k : ℕ) : ℕ :=
  (s.sort (· ≤ ·)).getD (k % s.card) 0

/-- Adjacency symmetry. -/
def Symm (nbrs : ℕ → Finset ℕ) : Prop := ∀ i j, j ∈ nbrs i ↔ i ∈ nbrs j

/-- No self-loops. -/
def Irrefl (nbrs : ℕ → Finset ℕ) : Prop := ∀ i, i ∉ nbrs i

/-- Total directed-degree count over the node range. -/
def edgeCount (N : ℕ) (nbrs : ℕ → Finset ℕ) : ℕ := ∑ i ∈ Finset.range N, (nbrs i).card

/-- The inner birth loop (`for _ in range(batch)` with `continue` on an empty
pool and `break` at a spent budget). -/
noncomputable def birthLoop (p : GrowParams) (t : ℕ) (eligible : Finset ℕ)
    (pickU pickV : ℕ → ℕ) : ℕ → GrowState → GrowState
  | 0, st => st
  | b + 1, st =>
    let u := chooseFrom eligible (pickU b)
    let pool := (Finset.range p.N).filter fun v => v ≠ u ∧ v ∉ st.nbrs u
    if pool = ∅ then birthLoop p t eligible pickU pickV b st
    else
      let v := chooseFrom pool (pickV b)
      let st' : GrowState :=
        ⟨add_edge u v st.nbrs, st.edgesLeft - 1, st.events ++ [(t, u, v)]⟩
      if st'.edgesLeft = 0 then st' else birthLoop p t eligible pickU pickV b st'

/-- The growth block guarding one step `t`: budget left, growth-check step,
warm buffer; eligible nodes are those whose windowed mean local coherence and
resource meet the growth thresholds. -/
noncomputable def growthStep (p : GrowParams) (Rm rv : ℕ → ℝ) (batchDraw : ℕ)
    (pickU pickV : ℕ → ℕ) (t : ℕ) (warm : ℕ) (st : GrowState) : GrowState :=
  if 0 < st.edgesLeft ∧ t % p.grow_every = 0 ∧ warm = p.window then
    let eligible := (Finset.range p.N).filter fun i =>
      p.grow_require_R_local ≤ Rm i ∧ p.grow_require_r ≤ rv i
    if 2 ≤ eligible.card then
      birthLoop p t eligible pickU pickV (min batchDraw st.edgesLeft) st
    else st
  else st

/-- The step-indexed growth run from an initial adjacency with a full budget
and no recorded events (`edges_left = cfg.grow_budget`). -/
noncomputable def growRun (p : GrowParams) (Rm rv : ℕ → ℕ → ℝ) (batchDraw : ℕ → ℕ)
    (pickU pickV : ℕ → ℕ → ℕ) (nbrs0 : ℕ → Finset ℕ) : ℕ → GrowState
  | 0 => ⟨nbrs0, p.grow_budget, []⟩
  | t + 1 => growthStep p (Rm t) (rv t) (batchDraw t) (pickU t) (pickV t) t
      (min (t + 1) p.window) (growRun p Rm rv batchDraw pickU pickV nbrs0 t)

/-! ## C3: small-world rewiring
(`crystallization_points._watts_strogatz` / `creation.watts_strogatz`, and
`multilayer_resonance.make_default_layers`).

Rewire decisions (`rng.random() < p`) are a boolean stream indexed by the
order in which the source consumes draws; the `rng.choice` index draws are a
second stream. -/

/-- The candidate pool of `_watts_strogatz`:
`[x for x in range(N) if x != i and x not in neighbors[i]]`. -/
def wsChoices (N i : ℕ) (nbrs : ℕ → Finset ℕ) : Finset ℕ :=
  (Finset.range N).filter fun x => x ≠ i ∧ x ∉ nbrs i

/-- `neighbors[a].add(b)`. -/
def wsAdd (a b : ℕ) (f : ℕ → Finset ℕ) : ℕ → Finset ℕ :=
  Function.update f a (insert b (f a))

/-- `neighbors[a].remove(b)`. -/
def wsRemove (a b : ℕ) (f : ℕ → Finset ℕ) : ℕ → Finset ℕ :=
  Function.update f a (f a \ {b})

/-- One realized rewire of edge `(i, j)`: pick `new` from the pool, then
`neighbors[i].remove(j); neighbors[j].remove(i); neighbors[i].add(new);
neighbors[new].add(i)`; a rewire with an empty pool is skipped. -/
noncomputable def rewireOne (N i j : ℕ) (pick : ℕ) (nbrs : ℕ → Finset ℕ) : ℕ → Finset ℕ :=
  if wsChoices N i nbrs = ∅ then nbrs
  else
    wsAdd (chooseFrom (wsChoices N i nbrs) pick) i
      (wsAdd i (chooseFrom (wsChoices N i nbrs) pick)
        (wsRemove j i (wsRemove i j nbrs)))

/-- The inner loop of `_watts_strogatz` over the snapshot of `neighbors[i]`,
rewiring each `j > i` when the decision stream fires; `cnt` counts consumed
decision draws. -/
noncomputable def wsInner (N : ℕ) (d : ℕ → Bool) (pick : ℕ → ℕ) (i : ℕ) :
    List ℕ → (ℕ → Finset ℕ) × ℕ → (ℕ → Finset ℕ) × ℕ
  | [], s => s
  | j :: rest, s =>
    if i < j then
      if d s.2 then wsInner N d pick i rest (rewireOne N i j (pick s.2) s.1, s.2 + 1)
      else wsInner N d pick i rest (s.1, s.2 + 1)
    else wsInner N d pick i rest s

/-- The outer loop of `_watts_strogatz` over nodes `0, ..., m-1`; each node
iterates over the sorted snapshot `list(neighbors[i])` taken at entry. -/
noncomputable def wsOuter (N : ℕ) (d : ℕ → Bool) (pick : ℕ → ℕ) :
    ℕ → (ℕ → Finset ℕ) × ℕ → (ℕ → Finset ℕ) × ℕ
  | 0, s => s
  | m + 1, s =>
    let s' := wsOuter N d pick m s
    wsInner N d pick m ((s'.1 m).sort (· ≤ ·)) s'

/-- The initial ring lattice: node `i < N` is joined to `(i ± j) % N` for
`j = 1, ..., k/2`. -/
noncomputable def ring_lattice (N k : ℕ) (i : ℕ) : Finset ℕ :=
  if i < N then
    (Finset.Icc 1 (k / 2)).image (fun j : ℕ => (((i : ℤ) - (j : ℤ)) % N).toNat) ∪
      (Finset.Icc 1 (k / 2)).image (fun j : ℕ => (((i : ℤ) + (j : ℤ)) % N).toNat)
  else ∅

/-- `crystallization_points._watts_strogatz` (identical to
`creation.watts_strogatz`): ring lattice then the rewiring pass. -/
noncomputable def watts_strogatz (N k : ℕ) (d : ℕ → Bool) (pick : ℕ → ℕ) : ℕ → Finset ℕ :=
  (wsOuter N d pick N (ring_lattice N k, 0)).1

/-- The ring lattice of `make_default_layers`: `A[i, (i+k) % N] = A[(i+k) % N, i] = 1`
for `i < N`, `k = 1, ..., k_ring/2`. -/
def mdlRing (N kr : ℕ) : ℕ → ℕ → Bool :=
  fun x y => decide (((Finset.Icc 1 (kr / 2)).filter fun k =>
    (x < N ∧ y = (x + k) % N) ∨ (y < N ∧ x = (y + k) % N)).Nonempty)

/-- `A[i, j] = A[j, i] = b`. -/
def setSym (A : ℕ → ℕ → Bool) (i j : ℕ) (b : Bool) : ℕ → ℕ → Bool :=
  fun x y => if (x = i ∧ y = j) ∨ (x = j ∧ y = i) then b else A x y

/-- The inner rewiring loop of `make_default_layers` over `j = i+1, ..., N-1`:
when the edge exists and the decision stream fires, zero the edge, draw a
target `r` (the source rejection-samples until `r != i`; `pickr` models the
loop's result, so theorems assume `pickr cnt i ≠ i`), set `A[i, r] = A[r, i] = 1`
and log `(i, j, r)`. -/
def mdlInner (d : ℕ → Bool) (pickr : ℕ → ℕ → ℕ) (i : ℕ) :
    List ℕ → (ℕ → ℕ → Bool) × ℕ × List (ℕ × ℕ × ℕ)
      → (ℕ → ℕ → Bool) × ℕ × List (ℕ × ℕ × ℕ)
  | [], s => s
  | j :: rest, s =>
    if s.1 i j = true then
      if d s.2.1 then
        mdlInner d pickr i rest
          (setSym (setSym s.1 i j false) i (pickr s.2.1 i) true, s.2.1 + 1,
            s.2.2 ++ [(i, j, pickr s.2.1 i)])
      else mdlInner d pickr i rest (s.1, s.2.1 + 1, s.2.2)
    else mdlInner d pickr i rest s

/-- The outer rewiring loop of `make_default_layers` over nodes `0, ..., m-1`. -/
def mdlOuter (d : ℕ → Bool) (pickr : ℕ → ℕ → ℕ) (N : ℕ) :
    ℕ → (ℕ → ℕ → Bool) × ℕ × List (ℕ × ℕ × ℕ)
      → (ℕ → ℕ → Bool) × ℕ × List (ℕ × ℕ × ℕ)
  | 0, s => s
  | m + 1, s => mdlInner d pickr m (List.range' (m + 1) (N - (m + 1))) (mdlOuter d pickr N m s)

/-- One layer of `multilayer_resonance.make_default_layers`: ring lattice, then
the rewiring pass; also returns the decision-draw count and the rewire log. -/
def make_default_layer_rewire (N kr : ℕ) (d : ℕ → Bool) (pickr : ℕ → ℕ → ℕ) :
    (ℕ → ℕ → Bool) × ℕ × List (ℕ × ℕ × ℕ) :=
  mdlOuter d pickr N N (mdlRing N kr, 0, [])

/-! ## C4: reproducibility and the global random state
(`multilayer_resonance.euler_step_multilayer`).

All inputs derived from the run's seeded generator (phases, frequencies,
couplings, adjacencies) are ordinary arguments; the noise term
`np.random.normal(0, noise_std, size=(L, N))` is drawn from NumPy's **global**
generator, which `simulate` never seeds — it is modelled by the separate
`globalNoise` argument holding the values of those global draws. -/

/-- The `1e-9` lower clip of the degree in `euler_step_multilayer`. -/
noncomputable def degClip : ℝ := 1 / 10 ^ 9

/-- `multilayer_resonance.euler_step_multilayer`: graph coupling with
`deg = clip(A.sum(axis=1), 1e-9, None)`, interlayer pull toward the node's
cross-layer circular mean, the global-generator noise (added only when
`noise_std > 0`), then the Euler update wrapped into `[0, 2π)`. -/
noncomputable def euler_step_multilayer (L N : ℕ) (theta : ℕ → ℕ → ℝ) (omega : ℕ → ℝ)
    (K_node : ℕ → ℝ) (layers : ℕ → ℕ → ℕ → ℝ) (gamma noise_std dt : ℝ)
    (globalNoise : ℕ → ℕ → ℝ) : ℕ → ℕ → ℝ :=
  fun l i =>
    let deg := max (∑ j ∈ Finset.range N, layers l i j) degClip
    let coupling := (∑ j ∈ Finset.range N, layers l i j * Real.sin (theta l j - theta l i)) / deg
    let mean_i := Complex.arg
      ((∑ m ∈ Finset.range L, Complex.exp ((theta m i : ℂ) * Complex.I)) / (L : ℂ))
    let dtheta := omega i + K_node i * coupling + gamma * Real.sin (mean_i - theta l i)
      + (if noise_std > 0 then globalNoise l i else 0)
    pymod (theta l i + dt * dtheta) (2 * π)

/-! ### Theorems -/

/-- C10: both windowed slope estimators return `none` on insufficient data
(`len < w` or `w < 2`) and, when they do return a slope, the window was full:
the value is computed from exactly the last `w` samples. -/
theorem slope_insufficient_data_guard (y : List ℚ) (w : ℕ) :
    ((y.length < w ∨ w < 2) → moving_slope y w = none ∧ poly_slope y w = none) ∧
    (∀ m, moving_slope y w = some m →
      2 ≤ w ∧ w ≤ y.length ∧ (y.drop (y.length - w)).length = w ∧
        m = lsqSlope (y.drop (y.length - w))) ∧
    (∀ m, poly_slope y w = some m →
      2 ≤ w ∧ w ≤ y.length ∧ (y.drop (y.length - w)).length = w ∧
        m = lsqSlope (y.drop (y.length - w))) := by
  refine ⟨fun h => ?_, fun m hm => ?_, fun m hm => ?_⟩
  · constructor
    · simp only [moving_slope, if_pos h]
    · simp only [poly_slope, if_pos (Or.symm h)]
  · by_cases h : y.length < w ∨ w < 2
    · simp [moving_slope, if_pos h] at hm
    · push_neg at h
      refine ⟨h.2, h.1, ?_, ?_⟩
      · rw [List.length_drop]; omega
      · simp only [moving_slope, not_or, not_lt] at hm
        rw [if_neg (by omega)] at hm
        exact (Option.some_inj.mp hm).symm
  · by_cases h : w < 2 ∨ y.length < w
    · simp [poly_slope, if_pos h] at hm
    · push_neg at h
      refine ⟨h.1, h.2, ?_, ?_⟩
      · rw [List.length_drop]; omega
      · simp only [poly_slope, not_or, not_lt] at hm
        rw [if_neg (by omega)] at hm
        exact (Option.some_inj.mp hm).symm

/-- C10 witness: `moving_slope` and `poly_slope` on a 2-element series with
window 3 both return `none`. -/
theorem slope_insufficient_data_guard_witness :
    moving_slope [0, 1] 3 = none ∧ poly_slope [0, 1] 3 = none :=
  (slope_insufficient_data_guard [0, 1] 3).1 (by decide)

/-! ## C1: range of `CompositeDriver.phase_at` -/

/-- C1 (amended): for every composite driver and step index, `phase_at` returns
the principal angle of the resultant phasor, which lies in `(-π, π]` (not in
`[0, 2π)` as originally claimed), and when the resultant phasor magnitude is
below the `1e-12` tolerance it returns exactly `0`. -/
theorem compositeDriver_phase_at_range (c : CompositeDriver) (t : ℕ) :
    c.phase_at t ∈ Set.Ioc (-π) π ∧
    (Complex.abs (c.resultant t) < phasorTol → c.phase_at t = 0) := by
  constructor
  · unfold CompositeDriver.phase_at
    split
    · exact ⟨by linarith [Real.pi_pos], Real.pi_pos.le⟩
    · exact ⟨Complex.neg_pi_lt_arg _, Complex.arg_le_pi _⟩
  · intro h
    simp [CompositeDriver.phase_at, h]

/-- C1 witness: a driverless composite has resultant `0`, whose magnitude is
below tolerance, so its phase defaults to `0`. -/
theorem compositeDriver_phase_at_range_witness :
    Complex.abs (CompositeDriver.resultant ⟨[], 1, 1⟩ 0) < phasorTol ∧
    CompositeDriver.phase_at ⟨[], 1, 1⟩ 0 = 0 := by
  have habs : Complex.abs (CompositeDriver.resultant ⟨[], 1, 1⟩ 0) < phasorTol := by
    simp [CompositeDriver.resultant, phasorTol]
  exact ⟨habs, (compositeDriver_phase_at_range ⟨[], 1, 1⟩ 0).2 habs⟩

/-- C1 counterexample: a single component of amplitude `1` and initial phase
`3π/2` at step `0` has resultant `-i`, so `phase_at` returns `-π/2`, which is
not in `[0, 2π)`. -/
theorem compositeDriver_phase_at_counterexample :
    CompositeDriver.phase_at ⟨[⟨0, 1, 3 * π / 2⟩], 1, 1⟩ 0 ∉ Set.Ico (0 : ℝ) (2 * π) := by
  have hphase : SineDriver.phase_at ⟨0, 1, 3 * π / 2⟩ 0 1 1 = 3 * π / 2 := by
    have h34 : (2 * π * 0 * ((0 : ℕ) * 1 * 1) + 3 * π / 2) = 3 * π / 2 := by push_cast; ring
    have hq : (3 * π / 2) / (2 * π) = 3 / 4 := by
      field_simp
      ring
    have hfloor : ⌊(3 * π / 2) / (2 * π)⌋ = 0 := by
      rw [hq, Int.floor_eq_zero_iff]
      constructor <;> norm_num
    unfold SineDriver.phase_at pymod
    rw [h34, hfloor]
    push_cast
    ring
  have hres : CompositeDriver.resultant ⟨[⟨0, 1, 3 * π / 2⟩], 1, 1⟩ 0 = -Complex.I := by
    have hsplit : ((3 * π / 2 : ℝ) : ℂ) = (π : ℝ) + ((π / 2 : ℝ) : ℂ) := by push_cast; ring
    have hhalf : Complex.exp (((π / 2 : ℝ) : ℂ) * Complex.I) = Complex.I := by
      rw [Complex.exp_mul_I, ← Complex.ofReal_cos, ← Complex.ofReal_sin]
      rw [Real.cos_pi_div_two, Real.sin_pi_div_two]
      simp
    simp only [CompositeDriver.resultant, List.map_cons, List.map_nil, List.sum_cons,
      List.sum_nil, hphase, add_zero]
    rw [hsplit, add_mul, Complex.exp_add, Complex.exp_pi_mul_I, hhalf]
    norm_num
  have habs : ¬ Complex.abs (CompositeDriver.resultant ⟨[⟨0, 1, 3 * π / 2⟩], 1, 1⟩ 0)
      < phasorTol := by
    rw [hres]
    simp [phasorTol]
    norm_num
  have hval : CompositeDriver.phase_at ⟨[⟨0, 1, 3 * π / 2⟩], 1, 1⟩ 0 = -(π / 2) := by
    unfold CompositeDriver.phase_at
    rw [if_neg habs, hres, Complex.arg_neg_I]
  rw [hval]
  intro hmem
  have := hmem.1
  have hpi := Real.pi_pos
  linarith

/-- A list sum of mapped values as a `Finset.range` sum over `getD` indexing. -/
theorem list_map_sum_range {M : Type} [AddCommMonoid M] (f : ℝ → M) (l : List ℝ) :
    (l.map f).sum = ∑ i ∈ Finset.range l.length, f (l.getD i 0) := by
  induction l with
  | nil => simp
  | cons a t ih =>
    rw [List.map_cons, List.sum_cons, List.length_cons, Finset.sum_range_succ']
    simp only [List.getD_cons_succ, List.getD_cons_zero]
    rw [ih, add_comm]

/-- C9: for every nonempty phase vector, the order-parameter magnitude equals
`|Σ e^{iθ}| / N` exactly, lies in `[0, 1]`, and equals `1` iff all phases are
identical mod `2π`. -/
theorem order_parameter_magnitude (θ : List ℝ) (h : 0 < θ.length) :
    (order_parameter θ).1 = Complex.abs (phasorSum θ) / θ.length ∧
    0 ≤ (order_parameter θ).1 ∧ (order_parameter θ).1 ≤ 1 ∧
    ((order_parameter θ).1 = 1 ↔
      ∀ i < θ.length, ∀ j < θ.length, ∃ m : ℤ, θ.getD i 0 - θ.getD j 0 = 2 * π * m) := by
  have hn : (0 : ℝ) < (θ.length : ℝ) := by exact_mod_cast h
  have hmag : (order_parameter θ).1 = Complex.abs (phasorSum θ) / (θ.length : ℝ) := by
    simp [order_parameter, map_div₀, Complex.abs_natCast]
  have hsum_range : phasorSum θ
      = ∑ i ∈ Finset.range θ.length, Complex.exp ((θ.getD i 0 : ℂ) * Complex.I) := by
    rw [phasorSum]
    exact list_map_sum_range (fun x => Complex.exp ((x : ℂ) * Complex.I)) θ
  have habs_le : Complex.abs (phasorSum θ) ≤ (θ.length : ℝ) := by
    rw [hsum_range]
    calc Complex.abs (∑ i ∈ Finset.range θ.length, Complex.exp ((θ.getD i 0 : ℂ) * Complex.I))
        ≤ ∑ i ∈ Finset.range θ.length,
            Complex.abs (Complex.exp ((θ.getD i 0 : ℂ) * Complex.I)) :=
          Complex.abs.sum_le _ _
      _ = ∑ _i ∈ Finset.range θ.length, (1 : ℝ) := by
          refine Finset.sum_congr rfl fun i _ => ?_
          exact Complex.abs_exp_ofReal_mul_I _
      _ = (θ.length : ℝ) := by simp
  refine ⟨hmag, ?_, ?_, ?_⟩
  · rw [hmag]; positivity
  · rw [hmag, div_le_one hn]; exact habs_le
  · rw [hmag, div_eq_one_iff_eq hn.ne']
    constructor
    · intro habs
      -- rotate by the argument of the resultant: all cosines must be 1
      set ψ := Complex.arg (phasorSum θ) with hψ
      have hT : ∑ i ∈ Finset.range θ.length,
          Complex.exp (((θ.getD i 0 - ψ : ℝ) : ℂ) * Complex.I) = (θ.length : ℂ) := by
        have hterm : ∀ i, Complex.exp (((θ.getD i 0 - ψ : ℝ) : ℂ) * Complex.I)
            = Complex.exp ((θ.getD i 0 : ℂ) * Complex.I) * Complex.exp (-((ψ : ℂ) * Complex.I)) := by
          intro i
          rw [← Complex.exp_add]
          congr 1
          push_cast
          ring
        rw [Finset.sum_congr rfl fun i _ => hterm i, ← Finset.sum_mul, ← hsum_range]
        have hS : ((Complex.abs (phasorSum θ) : ℝ) : ℂ) * Complex.exp ((ψ : ℂ) * Complex.I)
            = phasorSum θ := Complex.abs_mul_exp_arg_mul_I _
        rw [← hS, habs, mul_assoc, ← Complex.exp_add]
        simp
      have hcos : ∑ i ∈ Finset.range θ.length, Real.cos (θ.getD i 0 - ψ) = (θ.length : ℝ) := by
        have hre := congrArg Complex.re hT
        rw [Complex.re_sum] at hre
        simpa [← Complex.ofReal_sub, Complex.exp_ofReal_mul_I_re] using hre
      have hone : ∀ i ∈ Finset.range θ.length, Real.cos (θ.getD i 0 - ψ) = 1 := by
        have hle : ∀ i ∈ Finset.range θ.length, Real.cos (θ.getD i 0 - ψ) ≤ (1 : ℝ) :=
          fun i _ => Real.cos_le_one _
        refine (Finset.sum_eq_sum_iff_of_le hle).1 ?_
        rw [hcos]
        simp
      intro i hi j hj
      obtain ⟨mi, hmi⟩ := (Real.cos_eq_one_iff _).1 (hone i (Finset.mem_range.2 hi))
      obtain ⟨mj, hmj⟩ := (Real.cos_eq_one_iff _).1 (hone j (Finset.mem_range.2 hj))
      refine ⟨mi - mj, ?_⟩
      have : θ.getD i 0 - θ.getD j 0 = (mi : ℝ) * (2 * π) - (mj : ℝ) * (2 * π) := by
        rw [hmi, hmj]; ring
      rw [this]
      push_cast
      ring
    · intro hall
      have h0 : 0 < θ.length := h
      have hsame : ∀ i ∈ Finset.range θ.length,
          Complex.exp ((θ.getD i 0 : ℂ) * Complex.I)
            = Complex.exp ((θ.getD 0 0 : ℂ) * Complex.I) := by
        intro i hi
        obtain ⟨m, hm⟩ := hall i (Finset.mem_range.1 hi) 0 h0
        have hsplit : ((θ.getD i 0 : ℝ) : ℂ) = ((θ.getD 0 0 : ℝ) : ℂ) + (m : ℂ) * (2 * (π : ℂ)) := by
          have : (θ.getD i 0 : ℝ) = θ.getD 0 0 + 2 * π * m := by linarith [hm]
          rw [this]
          push_cast
          ring
        rw [hsplit, add_mul, Complex.exp_add]
        have hper : Complex.exp ((m : ℂ) * (2 * (π : ℂ)) * Complex.I) = 1 := by
          have := Complex.exp_int_mul_two_pi_mul_I m
          convert this using 2
          ring
        rw [hper, mul_one]
      have hS : phasorSum θ = (θ.length : ℂ) * Complex.exp ((θ.getD 0 0 : ℂ) * Complex.I) := by
        rw [hsum_range, Finset.sum_congr rfl hsame, Finset.sum_const, Finset.card_range,
          nsmul_eq_mul]
      rw [hS, map_mul, Complex.abs_natCast, Complex.abs_exp_ofReal_mul_I, mul_one]

/-- C9 witness: for the one-element phase vector `[0]`, the order-parameter
magnitude is `1` and indeed all (single) phases agree mod `2π`. -/
theorem order_parameter_magnitude_witness :
    0 < ([(0 : ℝ)] : List ℝ).length ∧
    ((order_parameter [(0 : ℝ)]).1 = 1 ↔
      ∀ i < ([(0 : ℝ)] : List ℝ).length, ∀ j < ([(0 : ℝ)] : List ℝ).length,
        ∃ m : ℤ, ([(0 : ℝ)] : List ℝ).getD i 0 - ([(0 : ℝ)] : List ℝ).getD j 0 = 2 * π * m) :=
  ⟨by decide, (order_parameter_magnitude [(0 : ℝ)] (by decide)).2.2.2⟩

/-! ## C7: the upward-crossing birth detector `detect_births` -/

theorem dropWhile_length_le {α : Type} (p : α → Bool) (l : List α) :
    (l.dropWhile p).length ≤ l.length := by
  conv_rhs => rw [← List.takeWhile_append_dropWhile p l]
  rw [List.length_append]
  exact Nat.le_add_left _ _

theorem replicate_append_getD_lt (a : ℕ) (tail : List Bool) (k : ℕ) (hk : k < a) :
    (List.replicate a true ++ tail).getD k false = true := by
  rw [List.getD_append _ _ _ _ (by simpa using hk)]
  rw [List.getD_eq_getElem _ _ (by simpa using hk)]
  simp

theorem replicate_append_getD_ge (a : ℕ) (tail : List Bool) (k : ℕ) (hk : a ≤ k) :
    (List.replicate a true ++ tail).getD k false = tail.getD (k - a) false := by
  rw [List.getD_append_right _ _ _ _ (by simpa using hk)]
  simp

theorem detectAux_mem_fuel (d : ℕ) :
    ∀ (n : ℕ) (l : List Bool), l.length ≤ n → ∀ (pos x : ℕ),
      (x ∈ detectAux d pos l ↔ ∃ j, x = pos + j ∧ birthSpec l d j) := by
  intro n
  induction n with
  | zero =>
    intro l hl pos x
    have hnil : l = [] := List.eq_nil_of_length_eq_zero (Nat.le_zero.1 hl)
    subst hnil
    simp [detectAux, birthSpec]
  | succ n ih =>
    intro l hl pos x
    match l with
    | [] => simp [detectAux, birthSpec]
    | false :: rest =>
      rw [show detectAux d pos (false :: rest) = detectAux d (pos + 1) rest from by
        rw [detectAux]]
      rw [ih rest (by simp only [List.length_cons] at hl; omega) (pos + 1) x]
      constructor
      · rintro ⟨j, rfl, h1, h2, h3⟩
        refine ⟨j + 1, by omega, ?_, ?_, ?_⟩
        · simpa using h1
        · right
          match j with
          | 0 => simp
          | j + 1 =>
            rcases h2 with h2 | h2
            · exact absurd h2 (by omega)
            · simpa using h2
        · intro k hk
          have := h3 k hk
          simpa [show j + 1 + k = (j + k) + 1 from by omega] using this
      · rintro ⟨j, rfl, h1, h2, h3⟩
        match j with
        | 0 => simp [birthSpec] at h1
        | j + 1 =>
          refine ⟨j, by omega, ?_, ?_, ?_⟩
          · simpa using h1
          · rcases h2 with h2 | h2
            · omega
            · match j with
              | 0 => left; rfl
              | j + 1 => right; simpa using h2
          · intro k hk
            have := h3 k hk
            simpa [show j + 1 + k = (j + k) + 1 from by omega] using this
    | true :: rest =>
      have hrest : rest
          = List.replicate (rest.takeWhile (fun b => b)).length true
              ++ rest.dropWhile (fun b => b) := by
        conv_lhs => rw [← List.takeWhile_append_dropWhile (fun b => b) rest]
        congr 1
        rw [List.eq_replicate_iff]
        exact ⟨rfl, fun y hy => by simpa using List.mem_takeWhile_imp hy⟩
      set a := (rest.takeWhile (fun b => b)).length with ha
      set tail := rest.dropWhile (fun b => b) with htail
      have htail0 : tail.getD 0 false = false := by
        cases htl : tail with
        | nil => simp
        | cons y ys =>
          have hy := List.head?_dropWhile_not (fun b => b) rest
          rw [← htail, htl] at hy
          simp at hy
          simp [hy]
      have htail_len : tail.length ≤ n := by
        have h1 : tail.length ≤ rest.length := dropWhile_length_le _ _
        have h2 : rest.length ≤ n := by simp only [List.length_cons] at hl; omega
        omega
      have hgetlt : ∀ k < a + 1, (true :: rest).getD k false = true := by
        intro k hk
        match k with
        | 0 => simp
        | k + 1 =>
          rw [List.getD_cons_succ, hrest]
          exact replicate_append_getD_lt a tail k (by omega)
      have hgetge : ∀ k, a + 1 ≤ k → (true :: rest).getD k false = tail.getD (k - (a + 1)) false := by
        intro k hk
        match k, hk with
        | k + 1, hk =>
          rw [List.getD_cons_succ, hrest, replicate_append_getD_ge a tail k (by omega)]
          congr 1
          omega
      rw [show detectAux d pos (true :: rest)
          = (if d ≤ 1 + a then [pos] else []) ++ detectAux d (pos + 1 + a) tail from by
        rw [detectAux]]
      rw [List.mem_append, ih tail htail_len (pos + 1 + a) x]
      constructor
      · rintro (hx | ⟨j, rfl, h1, h2, h3⟩)
        · -- emitted at pos: j = 0
          have hd : d ≤ 1 + a ∧ x = pos := by
            by_cases hcond : d ≤ 1 + a
            · rw [if_pos hcond] at hx; simp at hx; exact ⟨hcond, hx⟩
            · rw [if_neg hcond] at hx; simp at hx
          refine ⟨0, by omega, ?_, Or.inl rfl, ?_⟩
          · simp
          · intro k hk
            simpa using hgetlt k (by omega)
        · -- from the recursive call: j shifted by a + 1
          have hj0 : j ≠ 0 := by
            intro hj
            subst hj
            rw [htail0] at h1
            exact Bool.false_ne_true h1
          refine ⟨a + 1 + j, by omega, ?_, ?_, ?_⟩
          · rw [hgetge (a + 1 + j) (by omega),
              show a + 1 + j - (a + 1) = j from by omega]
            exact h1
          · right
            rw [hgetge (a + 1 + j - 1) (by omega),
              show a + 1 + j - 1 - (a + 1) = j - 1 from by omega]
            rcases h2 with h2 | h2
            · exact absurd h2 hj0
            · exact h2
          · intro k hk
            rw [hgetge (a + 1 + j + k) (by omega),
              show a + 1 + j + k - (a + 1) = j + k from by omega]
            exact h3 k hk
      · rintro ⟨j, rfl, h1, h2, h3⟩
        by_cases hjr : j = 0
        · subst hjr
          left
          have hd : d ≤ 1 + a := by
            by_contra hd
            push_neg at hd
            have := h3 (a + 1) (by omega)
            rw [hgetge (0 + (a + 1)) (by omega),
              show (0 : ℕ) + (a + 1) - (a + 1) = 0 from by omega, htail0] at this
            exact Bool.false_ne_true this
          rw [if_pos hd]
          simp
        · by_cases hjin : j < a + 1
          · -- interior of the leading run: previous entry is true, contradiction
            exfalso
            rcases h2 with h2 | h2
            · exact hjr h2
            · have := hgetlt (j - 1) (by omega)
              rw [this] at h2
              exact Bool.false_ne_true h2.symm
          · -- j ≥ a + 1; j = a + 1 impossible since tail starts false
            push_neg at hjin
            have hj1 : j ≠ a + 1 := by
              intro hj
              subst hj
              rw [hgetge (a + 1) le_rfl,
                show a + 1 - (a + 1) = 0 from by omega, htail0] at h1
              exact Bool.false_ne_true h1
            right
            refine ⟨j - (a + 1), by omega, ?_, ?_, ?_⟩
            · rw [hgetge j hjin] at h1
              exact h1
            · right
              rcases h2 with h2 | h2
              · omega
              · rw [hgetge (j - 1) (by omega),
                  show j - 1 - (a + 1) = j - (a + 1) - 1 from by omega] at h2
                exact h2
            · intro k hk
              have := h3 k hk
              rw [hgetge (j + k) (by omega),
                show j + k - (a + 1) = j - (a + 1) + k from by omega] at this
              exact this

theorem detectAux_chain (d : ℕ) :
    ∀ (n : ℕ) (l : List Bool), l.length ≤ n → ∀ pos : ℕ,
      List.Chain' (· < ·) (detectAux d pos l) ∧ ∀ x ∈ detectAux d pos l, pos ≤ x := by
  intro n
  induction n with
  | zero =>
    intro l hl pos
    have hnil : l = [] := List.eq_nil_of_length_eq_zero (Nat.le_zero.1 hl)
    subst hnil
    simp [detectAux]
  | succ n ih =>
    intro l hl pos
    match l with
    | [] => simp [detectAux]
    | false :: rest =>
      rw [show detectAux d pos (false :: rest) = detectAux d (pos + 1) rest from by
        rw [detectAux]]
      obtain ⟨hch, hlb⟩ := ih rest (by simp only [List.length_cons] at hl; omega) (pos + 1)
      exact ⟨hch, fun x hx => le_trans (by omega) (hlb x hx)⟩
    | true :: rest =>
      have htail_len : (rest.dropWhile (fun b => b)).length ≤ n := by
        have h1 := dropWhile_length_le (fun b : Bool => b) rest
        simp only [List.length_cons] at hl
        omega
      rw [show detectAux d pos (true :: rest)
          = (if d ≤ 1 + (rest.takeWhile (fun b => b)).length then [pos] else []) ++
              detectAux d (pos + 1 + (rest.takeWhile (fun b => b)).length)
                (rest.dropWhile (fun b => b)) from by
        rw [detectAux]]
      obtain ⟨hch, hlb⟩ := ih (rest.dropWhile (fun b => b)) htail_len
        (pos + 1 + (rest.takeWhile (fun b => b)).length)
      constructor
      · by_cases hcond : d ≤ 1 + (rest.takeWhile (fun b => b)).length
        · rw [if_pos hcond]
          rw [List.chain'_append]
          refine ⟨List.chain'_singleton pos, hch, ?_⟩
          intro x hx y hy
          have hx' : pos = x := by simpa using hx
          have hy' : y ∈ detectAux d (pos + 1 + (rest.takeWhile (fun b => b)).length)
              (rest.dropWhile (fun b => b)) := List.mem_of_mem_head? hy
          have := hlb y hy'
          omega
        · rw [if_neg hcond]
          simpa using hch
      · intro x hx
        rw [List.mem_append] at hx
        rcases hx with hx | hx
        · have : x = pos := by
            by_cases hcond : d ≤ 1 + (rest.takeWhile (fun b => b)).length
            · rw [if_pos hcond] at hx; simpa using hx
            · rw [if_neg hcond] at hx; simp at hx
          omega
        · have := hlb x hx
          omega

theorem aboveList_getD (R : List ℚ) (thr : ℚ) (i : ℕ) :
    (aboveList R thr).getD i false = true ↔ (i < R.length ∧ thr ≤ R.getD i 0) := by
  by_cases hi : i < R.length
  · rw [List.getD_eq_getElem _ _ (by simpa [aboveList] using hi),
      List.getD_eq_getElem _ _ hi]
    simp [aboveList, hi]
  · rw [List.getD_eq_default _ _ (by simpa [aboveList] using Nat.le_of_not_lt hi)]
    simp
    omega

theorem nodup_singleton_of_unique {l : List ℕ} {a : ℕ} (hnd : l.Nodup)
    (hmem : a ∈ l) (hall : ∀ x ∈ l, x = a) : l = [a] := by
  match l, hmem with
  | b :: t, _ =>
    have hb : b = a := hall b (by simp)
    subst hb
    have ht : t = [] := by
      cases ht : t with
      | nil => rfl
      | cons c u =>
        have hc : c = b := hall c (by simp [ht])
        rw [List.nodup_cons, ht] at hnd
        exact absurd (by simp [hc]) hnd.1
    simp [ht]

theorem detect_births_mem (R : List ℚ) (thr : ℚ) (d i : ℕ) :
    i ∈ detect_births R thr d ↔ birthSpec (aboveList R thr) d i := by
  unfold detect_births
  rw [detectAux_mem_fuel d (aboveList R thr).length (aboveList R thr) le_rfl 0 i]
  constructor
  · rintro ⟨j, hj, hspec⟩
    rwa [show i = j from by omega]
  · intro h
    exact ⟨i, by omega, h⟩

theorem detect_births_nodup (R : List ℚ) (thr : ℚ) (d : ℕ) :
    (detect_births R thr d).Nodup := by
  have hch := (detectAux_chain d (aboveList R thr).length (aboveList R thr) le_rfl 0).1
  exact (List.chain'_iff_pairwise.1 hch).imp Nat.ne_of_lt

theorem getD_false_iff (b : Bool) : b = false ↔ ¬ b = true := by
  cases b <;> simp

theorem demoR_length : demoR.length = 301 := by simp [demoR]

theorem demoR_getD (i : ℕ) (hi : i < 301) :
    demoR.getD i 0 = if i < 100 then 1 / 2 else 19 / 20 := by
  rw [List.getD_eq_getElem _ _ (by rw [demoR_length]; omega)]
  simp [demoR]

/-- C7: for every R series, threshold and hold duration, `detect_births` emits
an index `i` exactly when `R` is at or above the threshold at `i`, was below it
(or out of range) at `i - 1` (or `i = 0`), and stays at or above it for the
whole hold window `[i, i + d)` — i.e. exactly one event per maximal plateau of
length at least `d`, placed at the crossing index, and none for a shorter
plateau; the emitted list is duplicate-free; and on the demo series (`1/2`
before `t = 100`, `19/20` from `t = 100` through `t = 300`) with threshold
`4/5` and a 50-step hold it emits exactly `[100]`. -/
theorem detect_births_characterization :
    (∀ (R : List ℚ) (thr : ℚ) (d i : ℕ),
      i ∈ detect_births R thr d ↔
        (i < R.length ∧ thr ≤ R.getD i 0) ∧
        (i = 0 ∨ ¬ (i - 1 < R.length ∧ thr ≤ R.getD (i - 1) 0)) ∧
        (∀ k < d, i + k < R.length ∧ thr ≤ R.getD (i + k) 0)) ∧
    (∀ (R : List ℚ) (thr : ℚ) (d : ℕ), (detect_births R thr d).Nodup) ∧
    detect_births demoR (4 / 5) 50 = [100] := by
  have hchar : ∀ (R : List ℚ) (thr : ℚ) (d i : ℕ),
      i ∈ detect_births R thr d ↔
        (i < R.length ∧ thr ≤ R.getD i 0) ∧
        (i = 0 ∨ ¬ (i - 1 < R.length ∧ thr ≤ R.getD (i - 1) 0)) ∧
        (∀ k < d, i + k < R.length ∧ thr ≤ R.getD (i + k) 0) := by
    intro R thr d i
    rw [detect_births_mem, birthSpec]
    rw [aboveList_getD]
    constructor
    · rintro ⟨h1, h2, h3⟩
      refine ⟨h1, ?_, fun k hk => (aboveList_getD R thr (i + k)).1 (h3 k hk)⟩
      rcases h2 with h2 | h2
      · exact Or.inl h2
      · right
        rw [getD_false_iff, aboveList_getD] at h2
        exact h2
    · rintro ⟨h1, h2, h3⟩
      refine ⟨h1, ?_, fun k hk => (aboveList_getD R thr (i + k)).2 (h3 k hk)⟩
      rcases h2 with h2 | h2
      · exact Or.inl h2
      · right
        rw [getD_false_iff, aboveList_getD]
        exact h2
  refine ⟨hchar, detect_births_nodup, ?_⟩
  have hmem : ∀ i, i ∈ detect_births demoR (4 / 5) 50 ↔ i = 100 := by
    intro i
    rw [hchar]
    constructor
    · rintro ⟨⟨hlen, hval⟩, h2, _h3⟩
      rw [demoR_length] at hlen
      rw [demoR_getD i hlen] at hval
      have hi100 : ¬ i < 100 := by
        intro hlt
        rw [if_pos hlt] at hval
        norm_num at hval
      rcases h2 with h2 | h2
      · omega
      · rw [demoR_length] at h2
        push_neg at h2
        have hprev := h2 (by omega)
        rw [demoR_getD (i - 1) (by omega)] at hprev
        by_cases hp : i - 1 < 100
        · omega
        · rw [if_neg hp] at hprev
          norm_num at hprev
    · rintro rfl
      refine ⟨⟨by rw [demoR_length]; omega, ?_⟩, ?_, ?_⟩
      · rw [demoR_getD 100 (by omega), if_neg (by omega)]
        norm_num
      · right
        rintro ⟨-, hv⟩
        rw [demoR_getD 99 (by omega), if_pos (by omega)] at hv
        norm_num at hv
      · intro k hk
        refine ⟨by rw [demoR_length]; omega, ?_⟩
        rw [demoR_getD (100 + k) (by omega), if_neg (by omega)]
        norm_num
  exact nodup_singleton_of_unique (detect_births_nodup demoR (4 / 5) 50)
    ((hmem 100).2 rfl) (fun x hx => (hmem x).1 hx)

/-- C7 witness: on the one-element series `[1]` with threshold `1/2` and hold
`1`, index `0` satisfies the plateau-start conditions and is detected. -/
theorem detect_births_characterization_witness :
    0 ∈ detect_births [(1 : ℚ)] (1 / 2) 1 :=
  (detect_births_characterization.1 [(1 : ℚ)] (1 / 2) 1 0).2
    ⟨⟨by norm_num, by norm_num⟩, Or.inl rfl, by
      intro k hk
      interval_cases k
      exact ⟨by norm_num, by norm_num⟩⟩

/-- C8: the overall creation verdict is the conjunction of the five gates, with
the sovereignty gate equal to the supplied boolean verbatim; when the other
four gates hold, flipping `sovereignty_ok` alone flips the verdict. -/
theorem evaluate_gates_verdict (R gap : List ℚ) (ph : List (List ℝ))
    (cfg : GateConfig) (s : Bool) :
    ((evaluate_gates R gap ph cfg s).creation ↔
      ((evaluate_gates R gap ph cfg s).coherence_rising ∧
       (evaluate_gates R gap ph cfg s).gap_narrowing ∧
       (evaluate_gates R gap ph cfg s).anchors_ok ∧
       (evaluate_gates R gap ph cfg s).births_ok ∧
       (evaluate_gates R gap ph cfg s).sovereignty)) ∧
    ((evaluate_gates R gap ph cfg s).sovereignty ↔ s = true) ∧
    (coherence_rising_gate R cfg → gap_narrowing_gate gap cfg →
      anchors_ok_gate ph cfg → births_ok_gate R cfg →
      ((evaluate_gates R gap ph cfg true).creation ∧
        ¬ (evaluate_gates R gap ph cfg false).creation)) := by
  refine ⟨Iff.rfl, Iff.rfl, fun h1 h2 h3 h4 => ⟨⟨h1, h2, h3, h4, rfl⟩, ?_⟩⟩
  rintro ⟨-, -, -, -, hfalse⟩
  exact Bool.false_ne_true hfalse

theorem three_mem_nodup_length {l : List ℕ} (hnd : l.Nodup)
    (h0 : 0 ∈ l) (h2 : 2 ∈ l) (h5 : 5 ∈ l) : 3 ≤ l.length := by
  have hsub : ({0, 2, 5} : Finset ℕ) ⊆ l.toFinset := by
    intro x hx
    simp only [Finset.mem_insert, Finset.mem_singleton] at hx
    rcases hx with rfl | rfl | rfl <;> simpa [List.mem_toFinset]
  have hcard : ({0, 2, 5} : Finset ℕ).card = 3 := by decide
  calc 3 = ({0, 2, 5} : Finset ℕ).card := hcard.symm
    _ ≤ l.toFinset.card := Finset.card_le_card hsub
    _ = l.length := by rw [List.toFinset_card_of_nodup hnd]

theorem evaluate_gates_verdict_witness :
    (evaluate_gates [7/10, 0, 7/10, 0, 3/5, 7/10] [1, 1/2] [[(0 : ℝ), 0]]
      ⟨2, 3/5, 1/10000, 2, -(1/10000), 7/20, 1, 1/10, 13/20, 1, 2, 2⟩ true).creation ∧
    ¬ (evaluate_gates [7/10, 0, 7/10, 0, 3/5, 7/10] [1, 1/2] [[(0 : ℝ), 0]]
      ⟨2, 3/5, 1/10000, 2, -(1/10000), 7/20, 1, 1/10, 13/20, 1, 2, 2⟩ false).creation := by
  have h1 : coherence_rising_gate [7/10, 0, 7/10, 0, 3/5, 7/10]
      ⟨2, 3/5, 1/10000, 2, -(1/10000), 7/20, 1, 1/10, 13/20, 1, 2, 2⟩ := by
    refine ⟨1/10, ?_, by norm_num, by norm_num [r_now]⟩
    rw [moving_slope, if_neg (by norm_num)]
    norm_num [lsqSlope, List.range_succ]
  have h2 : gap_narrowing_gate [1, 1/2]
      ⟨2, 3/5, 1/10000, 2, -(1/10000), 7/20, 1, 1/10, 13/20, 1, 2, 2⟩ := by
    refine ⟨-(1/2), ?_, by norm_num⟩
    rw [show ([1, 1/2] : List ℚ).map (fun x => |x|) = [1, 1/2] from by norm_num,
      moving_slope, if_neg (by norm_num)]
    norm_num [lsqSlope, List.range_succ]
  have hpsi : (order_parameter [(0 : ℝ), 0]).2 = 0 := by
    have hps : phasorSum [(0 : ℝ), 0] = 2 := by
      simp [phasorSum]
      norm_num
    rw [order_parameter]
    simp only [hps]
    rw [show ((([(0 : ℝ), 0]).length : ℂ)) = 2 from by norm_num]
    norm_num [Complex.arg_one]
  have hwrap0 : wrap_angle 0 = 0 := by
    rw [wrap_angle, pymod]
    rw [show (0 + π) / (2 * π) = 1 / 2 from by
      rw [zero_add]
      rw [div_eq_iff (by positivity)]
      ring]
    norm_num
  have h3 : anchors_ok_gate [[(0 : ℝ), 0]]
      ⟨2, 3/5, 1/10000, 2, -(1/10000), 7/20, 1, 1/10, 13/20, 1, 2, 2⟩ := by
    unfold anchors_ok_gate
    have hap : anchor_persistence [[(0 : ℝ), 0]] (7/20) 1 = 1 := by
      rw [anchor_persistence, if_neg (by norm_num)]
      simp only [List.length_cons, List.length_nil, Nat.add_sub_cancel, List.drop_zero,
        List.getLastD_cons, List.getLastD_nil, hpsi, sub_zero]
      rw [Finset.filter_true_of_mem ?hall]
      case hall =>
        intro j hj
        intro row hrow
        rw [List.mem_singleton] at hrow
        subst hrow
        have hget : ([(0 : ℝ), 0]).getD j 0 = 0 := by
          simp only [Finset.mem_range] at hj
          interval_cases j <;> rfl
        rw [hget, hwrap0, abs_zero]
        norm_num
      rw [Finset.card_range]
      norm_num
    rw [hap]
    norm_num
  have h4 : births_ok_gate [7/10, 0, 7/10, 0, 3/5, 7/10]
      ⟨2, 3/5, 1/10000, 2, -(1/10000), 7/20, 1, 1/10, 13/20, 1, 2, 2⟩ := by
    unfold births_ok_gate
    have hchar := detect_births_characterization.1 [7/10, 0, 7/10, 0, 3/5, 7/10] (13/20) 1
    have h0 : 0 ∈ detect_births [7/10, 0, 7/10, 0, 3/5, 7/10] (13/20) 1 := by
      rw [hchar]
      refine ⟨⟨by norm_num, by norm_num⟩, Or.inl rfl, ?_⟩
      intro k hk
      interval_cases k
      exact ⟨by norm_num, by norm_num⟩
    have h2' : 2 ∈ detect_births [7/10, 0, 7/10, 0, 3/5, 7/10] (13/20) 1 := by
      rw [hchar]
      refine ⟨⟨by norm_num, by norm_num⟩, Or.inr ?_, ?_⟩
      · rintro ⟨-, hv⟩
        norm_num at hv
      · intro k hk
        interval_cases k
        exact ⟨by norm_num, by norm_num⟩
    have h5' : 5 ∈ detect_births [7/10, 0, 7/10, 0, 3/5, 7/10] (13/20) 1 := by
      rw [hchar]
      refine ⟨⟨by norm_num, by norm_num⟩, Or.inr ?_, ?_⟩
      · rintro ⟨-, hv⟩
        norm_num at hv
      · intro k hk
        interval_cases k
        exact ⟨by norm_num, by norm_num⟩
    have hlen : 3 ≤ (detect_births [7/10, 0, 7/10, 0, 3/5, 7/10] (13/20) 1).length :=
      three_mem_nodup_length (detect_births_nodup _ _ _) h0 h2' h5'
    show 2 ≤ (detect_births [7/10, 0, 7/10, 0, 3/5, 7/10] (13/20) 1).length ∧
      is_clustered (detect_births [7/10, 0, 7/10, 0, 3/5, 7/10] (13/20) 1) 2
    exact ⟨by omega, by omega, Or.inr hlen⟩
  exact (evaluate_gates_verdict [7/10, 0, 7/10, 0, 3/5, 7/10] [1, 1/2] [[(0 : ℝ), 0]]
    ⟨2, 3/5, 1/10000, 2, -(1/10000), 7/20, 1, 1/10, 13/20, 1, 2, 2⟩ true).2.2 h1 h2 h3 h4

theorem crystalRun_warm (p : CrystalParams) (Rloc r u : ℕ → ℕ → ℝ) (k : ℕ) :
    (crystalRun p Rloc r u k).warm = min k p.window := by
  induction k with
  | zero => simp [crystalRun, crystalInit]
  | succ k ih =>
    show (crystalStep p _ _ _ (crystalRun p Rloc r u k)).warm = _
    rw [crystalStep, decayStep, promoteStep]
    split
    · simp only [recordStep, ih]
      omega
    · simp only [recordStep, ih]
      omega

/-- C6: in every run of the anchor sub-model, no node is an anchor before the
crystallization buffer has recorded `window` consecutive steps; and the
promotion stage promotes a node exactly when the buffer is warm, its windowed
mean local coherence reaches the coherence threshold, its resource reaches the
resource threshold and it is not already an anchor — and promotion resets its
age to 0. -/
theorem crystallization_promotion_gating (p : CrystalParams) (Rloc r u : ℕ → ℕ → ℝ) :
    (∀ k, k < p.window → ∀ i, (crystalRun p Rloc r u k).anchor i = false) ∧
    (∀ (s : CrystalState) (rv : ℕ → ℝ) (i : ℕ),
      ((promoteStep p rv s).anchor i = true ↔
        (s.anchor i = true ∨ (s.warm = p.window ∧ s.anchor i = false ∧
          p.thresh_R_local ≤ RmeanLocal p.window s.Rbuf i ∧ p.thresh_resource ≤ rv i))) ∧
      (s.anchor i = false → (promoteStep p rv s).anchor i = true →
        (promoteStep p rv s).age i = 0)) := by
  constructor
  · intro k
    induction k with
    | zero => intro _ i; rfl
    | succ k ih =>
      intro hk i
      have hprev : ∀ j, (crystalRun p Rloc r u k).anchor j = false := ih (by omega)
      show (crystalStep p (Rloc k) (r k) (u k) (crystalRun p Rloc r u k)).anchor i = false
      rw [crystalStep, decayStep]
      have hpa : (promoteStep p (r k)
          (recordStep p.window (Rloc k) (crystalRun p Rloc r u k))).anchor i = false := by
        rw [promoteStep]
        split
        · next hcond =>
          exfalso
          rw [recordStep] at hcond
          simp only [crystalRun_warm] at hcond
          omega
        · rw [recordStep]
          exact hprev i
      simp only [hpa]
      split <;> rfl
  · intro s rv i
    constructor
    · rw [promoteStep]
      split
      · next hwarm =>
        simp only [Bool.or_eq_true, toAnchor, Bool.and_eq_true, Bool.not_eq_true',
          decide_eq_true_eq]
        constructor
        · rintro (h | ⟨⟨hna, hR⟩, hr⟩)
          · exact Or.inl h
          · exact Or.inr ⟨hwarm, hna, hR, hr⟩
        · rintro (h | ⟨-, hna, hR, hr⟩)
          · exact Or.inl h
          · exact Or.inr ⟨⟨hna, hR⟩, hr⟩
      · next hwarm =>
        constructor
        · intro h
          exact Or.inl h
        · rintro (h | ⟨hw, -⟩)
          · exact h
          · exact absurd hw hwarm
    · intro hfalse htrue
      by_cases hwarm : s.warm = p.window
      · rw [promoteStep, if_pos hwarm] at htrue ⊢
        simp only [Bool.or_eq_true] at htrue
        rcases htrue with h | h
        · rw [hfalse] at h
          exact absurd h (by simp)
        · simp only [h]
          rfl
      · rw [promoteStep, if_neg hwarm] at htrue
        rw [hfalse] at htrue
        exact absurd htrue (by simp)

/-- C6 witness: with a 2-step window and arbitrary zero streams, after 1 step
node 0 is still not an anchor. -/
theorem crystallization_promotion_gating_witness :
    1 < (⟨2, 0, 0, 1, 0⟩ : CrystalParams).window ∧
    (crystalRun ⟨2, 0, 0, 1, 0⟩ (fun _ _ => 0) (fun _ _ => 0) (fun _ _ => 0) 1).anchor 0
      = false :=
  ⟨by norm_num,
    (crystallization_promotion_gating ⟨2, 0, 0, 1, 0⟩ _ _ _).1 1 (by norm_num) 0⟩

/-- C2 counterexample: a non-starved anchor (resource `3/5` at or above the
starvation threshold `7/20`) still has its age bumped from 0 to 1 by the decay
block, contradicting "age accumulates only for starved anchors". -/
theorem anchor_age_counterexample :
    (⟨fun _ _ => 0, 0, 2, fun _ => true, fun _ => 0⟩ : CrystalState).anchor 0 = true ∧
    (⟨2, 0, 0, 600, 7 / 20⟩ : CrystalParams).starve_threshold ≤ (3 / 5 : ℝ) ∧
    (decayStep ⟨2, 0, 0, 600, 7 / 20⟩ (fun _ => 3 / 5) (fun _ => 1 / 2)
      ⟨fun _ _ => 0, 0, 2, fun _ => true, fun _ => 0⟩).age 0 = 1 := by
  refine ⟨rfl, by norm_num, ?_⟩
  have hprob : decayProb ⟨2, 0, 0, 600, 7 / 20⟩ (fun _ => 3 / 5)
      ⟨fun _ _ => 0, 0, 2, fun _ => true, fun _ => 0⟩ 0 = 0 := by
    rw [decayProb, if_neg ?hc]
    case hc =>
      simp only [Bool.and_eq_true, decide_eq_true_eq]
      rintro ⟨-, hlt⟩
      norm_num at hlt
  rw [decayStep]
  simp only [hprob]
  rw [if_neg (by norm_num)]
  rfl

/-- C2 (amended): at each decay step, every anchor's age is bumped by one
(whether starved or not); the drop probability is `1 − 0.5^(age'/half_life)`
with `age'` the bumped age and `half_life = max(1, anchor_half_life)` for
starved anchors (resource strictly below the starvation threshold) and `0` for
all other nodes; a node drops exactly when its uniform draw is below this
probability, and a drop resets the anchor flag and age to `false`/`0`;
non-anchors are unchanged. -/
theorem anchor_decay_rule (p : CrystalParams) (r u : ℕ → ℝ) (s : CrystalState) (i : ℕ)
    (hu : 0 ≤ u i) :
    (decayProb p r s i =
      if s.anchor i = true ∧ r i < p.starve_threshold
      then 1 - (1 / 2 : ℝ) ^ (((s.age i + 1 : ℕ) : ℝ) / ((max 1 p.anchor_half_life : ℕ) : ℝ))
      else 0) ∧
    (s.anchor i = true →
      (decayStep p r u s).age i = if u i < decayProb p r s i then 0 else s.age i + 1) ∧
    (u i < decayProb p r s i →
      (decayStep p r u s).anchor i = false ∧ (decayStep p r u s).age i = 0) ∧
    (s.anchor i = false →
      (decayStep p r u s).anchor i = false ∧ (decayStep p r u s).age i = s.age i) := by
  refine ⟨?_, ?_, ?_, ?_⟩
  · rw [decayProb]
    by_cases ha : s.anchor i = true
    · by_cases hr : r i < p.starve_threshold
      · rw [if_pos (by simp [ha, hr]), if_pos ⟨ha, hr⟩, ageAfterInc, if_pos ha]
      · rw [if_neg (by simp [hr]), if_neg (by rintro ⟨-, h⟩; exact hr h)]
    · rw [if_neg (by simp [ha]), if_neg (by rintro ⟨h, -⟩; exact ha h)]
  · intro ha
    rw [decayStep]
    simp only
    split
    · rfl
    · rw [ageAfterInc, if_pos ha]
  · intro hdrop
    rw [decayStep]
    simp only
    rw [if_pos hdrop, if_pos hdrop]
    exact ⟨rfl, rfl⟩
  · intro ha
    have hprob : decayProb p r s i = 0 := by
      rw [decayProb, if_neg (by simp [ha])]
    rw [decayStep]
    simp only [hprob]
    rw [if_neg (by exact not_lt.2 hu), if_neg (by exact not_lt.2 hu), ageAfterInc,
      if_neg (by simp [ha])]
    exact ⟨ha, rfl⟩

/-- C2 witness: a starved anchor (resource `1/5 < 7/20`) of age 0 with
half-life 1 has drop probability `1/2`; the draw `1/4 < 1/2` realizes the drop,
resetting anchor and age. -/
theorem anchor_decay_rule_witness :
    (0 : ℝ) ≤ (1 / 4 : ℝ) ∧
    (decayStep ⟨2, 0, 0, 1, 7 / 20⟩ (fun _ => 1 / 5) (fun _ => 1 / 4)
      ⟨fun _ _ => 0, 0, 2, fun _ => true, fun _ => 0⟩).anchor 0 = false ∧
    (decayStep ⟨2, 0, 0, 1, 7 / 20⟩ (fun _ => 1 / 5) (fun _ => 1 / 4)
      ⟨fun _ _ => 0, 0, 2, fun _ => true, fun _ => 0⟩).age 0 = 0 := by
  have hrule := anchor_decay_rule ⟨2, 0, 0, 1, 7 / 20⟩ (fun _ => 1 / 5) (fun _ => 1 / 4)
    ⟨fun _ _ => 0, 0, 2, fun _ => true, fun _ => 0⟩ 0 (by norm_num)
  have hprob : decayProb ⟨2, 0, 0, 1, 7 / 20⟩ (fun _ => 1 / 5)
      ⟨fun _ _ => 0, 0, 2, fun _ => true, fun _ => 0⟩ 0 = 1 / 2 := by
    rw [hrule.1, if_pos ⟨rfl, by norm_num⟩]
    norm_num [Real.rpow_one]
  have hdrop := hrule.2.2.1 (by rw [hprob]; norm_num)
  exact ⟨by norm_num, hdrop.1, hdrop.2⟩

theorem chooseFrom_mem {s : Finset ℕ} (hs : s.Nonempty) (k : ℕ) : chooseFrom s k ∈ s := by
  have hlen : (s.sort (· ≤ ·)).length = s.card := Finset.length_sort _
  have hcard : 0 < s.card := Finset.card_pos.2 hs
  rw [chooseFrom, List.getD_eq_getElem _ _ (by rw [hlen]; exact Nat.mod_lt _ hcard)]
  exact (Finset.mem_sort _).1 (List.getElem_mem _)

theorem add_edge_of_guard {u v : ℕ} {nbrs : ℕ → Finset ℕ} (hne : v ∉ nbrs u) (huv : u ≠ v) :
    add_edge u v nbrs u = insert v (nbrs u) ∧
    add_edge u v nbrs v = insert u (nbrs v) ∧
    ∀ i, i ≠ u → i ≠ v → add_edge u v nbrs i = nbrs i := by
  rw [add_edge, if_pos ⟨hne, huv⟩]
  refine ⟨?_, ?_, ?_⟩
  · rw [Function.update_apply, if_neg huv, Function.update_same]
  · rw [Function.update_same]
  · intro i hiu hiv
    rw [Function.update_apply, if_neg hiv, Function.update_apply, if_neg hiu]

theorem add_edge_mem {u v : ℕ} {nbrs : ℕ → Finset ℕ} (hne : v ∉ nbrs u) (huv : u ≠ v)
    (x y : ℕ) :
    y ∈ add_edge u v nbrs x ↔ (y ∈ nbrs x ∨ (x = u ∧ y = v) ∨ (x = v ∧ y = u)) := by
  obtain ⟨hau, hav, hother⟩ := add_edge_of_guard hne huv
  by_cases hxu : x = u
  · subst hxu
    rw [hau, Finset.mem_insert]
    constructor
    · rintro (rfl | h)
      · exact Or.inr (Or.inl ⟨rfl, rfl⟩)
      · exact Or.inl h
    · rintro (h | ⟨-, rfl⟩ | ⟨rfl, rfl⟩)
      · exact Or.inr h
      · exact Or.inl rfl
      · exact absurd rfl huv
  · by_cases hxv : x = v
    · subst hxv
      rw [hav, Finset.mem_insert]
      constructor
      · rintro (rfl | h)
        · exact Or.inr (Or.inr ⟨rfl, rfl⟩)
        · exact Or.inl h
      · rintro (h | ⟨rfl, -⟩ | ⟨-, rfl⟩)
        · exact Or.inr h
        · exact absurd rfl hxu
        · exact Or.inl rfl
    · rw [hother x hxu hxv]
      simp [hxu, hxv]

theorem add_edge_symm {u v : ℕ} {nbrs : ℕ → Finset ℕ} (h : Symm nbrs) :
    Symm (add_edge u v nbrs) := by
  by_cases hg : v ∉ nbrs u ∧ u ≠ v
  · intro i j
    rw [add_edge_mem hg.1 hg.2, add_edge_mem hg.1 hg.2, h i j]
    tauto
  · rw [add_edge, if_neg hg]
    exact h

theorem add_edge_irrefl {u v : ℕ} {nbrs : ℕ → Finset ℕ} (h : Irrefl nbrs) :
    Irrefl (add_edge u v nbrs) := by
  by_cases hg : v ∉ nbrs u ∧ u ≠ v
  · intro i
    rw [add_edge_mem hg.1 hg.2]
    rintro (hmem | ⟨rfl, rfl⟩ | ⟨rfl, rfl⟩)
    · exact h i hmem
    · exact hg.2 rfl
    · exact hg.2 rfl
  · rw [add_edge, if_neg hg]
    exact h

theorem add_edge_subset {u v : ℕ} {nbrs : ℕ → Finset ℕ} (i : ℕ) :
    nbrs i ⊆ add_edge u v nbrs i := by
  by_cases hg : v ∉ nbrs u ∧ u ≠ v
  · intro y hy
    rw [add_edge_mem hg.1 hg.2]
    exact Or.inl hy
  · rw [add_edge, if_neg hg]

theorem edgeCount_add_edge {N u v : ℕ} {nbrs : ℕ → Finset ℕ} (hu : u < N) (hv : v < N)
    (huv : u ≠ v) (hne : v ∉ nbrs u) (hne' : u ∉ nbrs v) :
    edgeCount N (add_edge u v nbrs) = edgeCount N nbrs + 2 := by
  obtain ⟨hau, hav, hother⟩ := add_edge_of_guard hne huv
  have hu' : u ∈ Finset.range N := Finset.mem_range.2 hu
  have hv' : v ∈ (Finset.range N).erase u :=
    Finset.mem_erase.2 ⟨Ne.symm huv, Finset.mem_range.2 hv⟩
  have hsplit : ∀ g : ℕ → Finset ℕ, edgeCount N g
      = (g u).card + ((g v).card + ∑ i ∈ ((Finset.range N).erase u).erase v, (g i).card) := by
    intro g
    rw [edgeCount, ← Finset.add_sum_erase _ _ hu', ← Finset.add_sum_erase _ _ hv']
  rw [hsplit, hsplit, hau, hav, Finset.card_insert_of_not_mem hne,
    Finset.card_insert_of_not_mem hne']
  have hrest : ∑ i ∈ ((Finset.range N).erase u).erase v, (add_edge u v nbrs i).card
      = ∑ i ∈ ((Finset.range N).erase u).erase v, (nbrs i).card := by
    refine Finset.sum_congr rfl fun i hi => ?_
    rw [Finset.mem_erase] at hi
    rw [hother i (Finset.mem_erase.1 hi.2).1 hi.1]
  rw [hrest]
  ring

theorem birthLoop_spec (p : GrowParams) (t : ℕ) (eligible : Finset ℕ)
    (hel : eligible ⊆ Finset.range p.N) (helne : eligible.Nonempty)
    (pickU pickV : ℕ → ℕ) :
    ∀ (b : ℕ) (st : GrowState), b ≤ st.edgesLeft → Symm st.nbrs → Irrefl st.nbrs →
      (Symm (birthLoop p t eligible pickU pickV b st).nbrs ∧
       Irrefl (birthLoop p t eligible pickU pickV b st).nbrs ∧
       (∀ i, st.nbrs i ⊆ (birthLoop p t eligible pickU pickV b st).nbrs i) ∧
       (birthLoop p t eligible pickU pickV b st).edgesLeft ≤ st.edgesLeft ∧
       (birthLoop p t eligible pickU pickV b st).events.length
           + (birthLoop p t eligible pickU pickV b st).edgesLeft
         = st.events.length + st.edgesLeft ∧
       edgeCount p.N (birthLoop p t eligible pickU pickV b st).nbrs
           + 2 * (birthLoop p t eligible pickU pickV b st).edgesLeft
         = edgeCount p.N st.nbrs + 2 * st.edgesLeft ∧
       (∀ e ∈ (birthLoop p t eligible pickU pickV b st).events,
         e ∈ st.events ∨ e.2.1 ≠ e.2.2)) := by
  intro b
  induction b with
  | zero =>
    intro st _ hsym hirr
    simp only [birthLoop]
    exact ⟨hsym, hirr, fun i => subset_rfl, le_rfl, by simp, by simp, fun e he => Or.inl he⟩
  | succ b ih =>
    intro st hb hsym hirr
    simp only [birthLoop]
    set u := chooseFrom eligible (pickU b) with hu_eq
    set pool := (Finset.range p.N).filter (fun v => v ≠ u ∧ v ∉ st.nbrs u) with hpool_eq
    have hu_mem : u ∈ eligible := chooseFrom_mem helne _
    have hu_lt : u < p.N := Finset.mem_range.1 (hel hu_mem)
    by_cases hpool : pool = ∅
    · rw [if_pos hpool]
      exact ih st (by omega) hsym hirr
    · rw [if_neg hpool]
      have hpoolne : pool.Nonempty := Finset.nonempty_iff_ne_empty.2 hpool
      set v := chooseFrom pool (pickV b) with hv_eq
      have hv_mem : v ∈ pool := chooseFrom_mem hpoolne _
      rw [hpool_eq, Finset.mem_filter] at hv_mem
      have hvrange := hv_mem.1
      have hvne := hv_mem.2.1
      have hvnotin := hv_mem.2.2
      have hv_lt : v < p.N := Finset.mem_range.1 hvrange
      have huv : u ≠ v := Ne.symm hvne
      have hnotin' : u ∉ st.nbrs v := by
        intro h
        exact hvnotin ((hsym _ _).1 h)
      have hsym' : Symm (add_edge u v st.nbrs) := add_edge_symm hsym
      have hirr' : Irrefl (add_edge u v st.nbrs) := add_edge_irrefl hirr
      have hcount := edgeCount_add_edge hu_lt hv_lt huv hvnotin hnotin'
      by_cases hzero : st.edgesLeft - 1 = 0
      · rw [if_pos hzero]
        refine ⟨hsym', hirr', fun i => add_edge_subset i,
          (show st.edgesLeft - 1 ≤ st.edgesLeft from by omega), ?_, ?_, ?_⟩
        · show (st.events ++ [(t, u, v)]).length + (st.edgesLeft - 1)
            = st.events.length + st.edgesLeft
          simp only [List.length_append, List.length_cons, List.length_nil]
          omega
        · show edgeCount p.N (add_edge u v st.nbrs) + 2 * (st.edgesLeft - 1)
            = edgeCount p.N st.nbrs + 2 * st.edgesLeft
          rw [hcount]
          omega
        · intro e he
          have he' : e ∈ st.events ++ [(t, u, v)] := he
          rw [List.mem_append] at he'
          rcases he' with he' | he'
          · exact Or.inl he'
          · right
            rw [List.mem_singleton] at he'
            subst he'
            exact huv
      · rw [if_neg hzero]
        obtain ⟨a1, a2, a3, a4, a5, a6, a7⟩ :=
          ih ⟨add_edge u v st.nbrs, st.edgesLeft - 1, st.events ++ [(t, u, v)]⟩
            ((by omega : b ≤ st.edgesLeft - 1)) hsym' hirr'
        refine ⟨a1, a2, fun i => subset_trans (add_edge_subset i) (a3 i), ?_, ?_, ?_, ?_⟩
        · dsimp only at a4
          omega
        · dsimp only at a5
          simp only [List.length_append, List.length_cons, List.length_nil] at a5
          omega
        · dsimp only at a6
          simp only [hcount] at a6
          omega
        · intro e he
          rcases a7 e he with h | h
          · rw [List.mem_append] at h
            rcases h with h | h
            · exact Or.inl h
            · right
              rw [List.mem_singleton] at h
              subst h
              exact huv
          · exact Or.inr h

theorem growthStep_spec (p : GrowParams) (Rm rv : ℕ → ℝ) (batchDraw : ℕ)
    (pickU pickV : ℕ → ℕ) (t warm : ℕ) (st : GrowState)
    (hsym : Symm st.nbrs) (hirr : Irrefl st.nbrs) :
    (Symm (growthStep p Rm rv batchDraw pickU pickV t warm st).nbrs ∧
     Irrefl (growthStep p Rm rv batchDraw pickU pickV t warm st).nbrs ∧
     (∀ i, st.nbrs i ⊆ (growthStep p Rm rv batchDraw pickU pickV t warm st).nbrs i) ∧
     (growthStep p Rm rv batchDraw pickU pickV t warm st).edgesLeft ≤ st.edgesLeft ∧
     (growthStep p Rm rv batchDraw pickU pickV t warm st).events.length
         + (growthStep p Rm rv batchDraw pickU pickV t warm st).edgesLeft
       = st.events.length + st.edgesLeft ∧
     edgeCount p.N (growthStep p Rm rv batchDraw pickU pickV t warm st).nbrs
         + 2 * (growthStep p Rm rv batchDraw pickU pickV t warm st).edgesLeft
       = edgeCount p.N st.nbrs + 2 * st.edgesLeft ∧
     (∀ e ∈ (growthStep p Rm rv batchDraw pickU pickV t warm st).events,
       e ∈ st.events ∨ e.2.1 ≠ e.2.2)) := by
  rw [growthStep]
  split
  · dsimp only
    split
    · next hcard =>
      exact birthLoop_spec p t _ (Finset.filter_subset _ _)
        (Finset.card_pos.1 (by omega)) pickU pickV
        (min batchDraw st.edgesLeft) st (Nat.min_le_right _ _) hsym hirr
    · exact ⟨hsym, hirr, fun i => subset_rfl, le_rfl, rfl, rfl, fun e he => Or.inl he⟩
  · exact ⟨hsym, hirr, fun i => subset_rfl, le_rfl, rfl, rfl, fun e he => Or.inl he⟩

/-- C5: throughout every run of the growth block, the number of birthed edges
never exceeds `grow_budget` (with `events.length + edges_left = grow_budget`
exactly), the adjacency stays symmetric and free of self-loops, every birth
adds a genuinely new undirected edge (total degree = initial + 2·births, so no
birth duplicates an existing edge), every recorded birth joins two distinct
nodes, and adjacency sets only ever grow. -/
theorem creation_edge_birth_invariants (p : GrowParams) (Rm rv : ℕ → ℕ → ℝ)
    (batchDraw : ℕ → ℕ) (pickU pickV : ℕ → ℕ → ℕ) (nbrs0 : ℕ → Finset ℕ)
    (hsym : Symm nbrs0) (hirr : Irrefl nbrs0) (k : ℕ) :
    ((growRun p Rm rv batchDraw pickU pickV nbrs0 k).events.length ≤ p.grow_budget) ∧
    ((growRun p Rm rv batchDraw pickU pickV nbrs0 k).events.length
        + (growRun p Rm rv batchDraw pickU pickV nbrs0 k).edgesLeft = p.grow_budget) ∧
    Symm (growRun p Rm rv batchDraw pickU pickV nbrs0 k).nbrs ∧
    Irrefl (growRun p Rm rv batchDraw pickU pickV nbrs0 k).nbrs ∧
    (edgeCount p.N (growRun p Rm rv batchDraw pickU pickV nbrs0 k).nbrs
      = edgeCount p.N nbrs0
          + 2 * (growRun p Rm rv batchDraw pickU pickV nbrs0 k).events.length) ∧
    (∀ e ∈ (growRun p Rm rv batchDraw pickU pickV nbrs0 k).events, e.2.1 ≠ e.2.2) ∧
    (∀ i, (growRun p Rm rv batchDraw pickU pickV nbrs0 k).nbrs i
      ⊆ (growRun p Rm rv batchDraw pickU pickV nbrs0 (k + 1)).nbrs i) := by
  induction k with
  | zero =>
    refine ⟨by simp [growRun], by simp [growRun], hsym, hirr, by simp [growRun], ?_, ?_⟩
    · intro e he
      simp [growRun] at he
    · intro i
      exact (growthStep_spec p (Rm 0) (rv 0) (batchDraw 0) (pickU 0) (pickV 0) 0
        (min 1 p.window) ⟨nbrs0, p.grow_budget, []⟩ hsym hirr).2.2.1 i
  | succ k ih =>
    obtain ⟨b1, b2, b3, b4, b5, b6, b7⟩ := ih
    have hstep : growRun p Rm rv batchDraw pickU pickV nbrs0 (k + 1)
        = growthStep p (Rm k) (rv k) (batchDraw k) (pickU k) (pickV k) k
            (min (k + 1) p.window) (growRun p Rm rv batchDraw pickU pickV nbrs0 k) := rfl
    obtain ⟨c1, c2, c3, c4, c5, c6, c7⟩ :=
      growthStep_spec p (Rm k) (rv k) (batchDraw k) (pickU k) (pickV k) k
        (min (k + 1) p.window) (growRun p Rm rv batchDraw pickU pickV nbrs0 k) b3 b4
    rw [← hstep] at c1 c2 c3 c4 c5 c6 c7
    refine ⟨by omega, by omega, c1, c2, by omega, ?_, ?_⟩
    · intro e he
      rcases c7 e he with h | h
      · exact b6 e h
      · exact h
    · intro i
      have hstep2 : growRun p Rm rv batchDraw pickU pickV nbrs0 (k + 2)
          = growthStep p (Rm (k + 1)) (rv (k + 1)) (batchDraw (k + 1)) (pickU (k + 1))
              (pickV (k + 1)) (k + 1) (min (k + 2) p.window)
              (growRun p Rm rv batchDraw pickU pickV nbrs0 (k + 1)) := rfl
      have hmono := (growthStep_spec p (Rm (k + 1)) (rv (k + 1)) (batchDraw (k + 1))
        (pickU (k + 1)) (pickV (k + 1)) (k + 1) (min (k + 2) p.window)
        (growRun p Rm rv batchDraw pickU pickV nbrs0 (k + 1)) c1 c2).2.2.1 i
      rw [← hstep2] at hmono
      exact hmono

/-- C5 witness: starting from the empty symmetric adjacency on 3 nodes with
budget 2, after 3 growth steps the number of birthed edges is within budget. -/
theorem creation_edge_birth_invariants_witness :
    Symm (fun _ : ℕ => (∅ : Finset ℕ)) ∧ Irrefl (fun _ : ℕ => (∅ : Finset ℕ)) ∧
    (growRun ⟨3, 1, 2, 0, 0, 1⟩ (fun _ _ => 0) (fun _ _ => 0) (fun _ => 1)
        (fun _ _ => 0) (fun _ _ => 0) (fun _ => ∅) 3).events.length
      ≤ (⟨3, 1, 2, 0, 0, 1⟩ : GrowParams).grow_budget := by
  have hsym : Symm (fun _ : ℕ => (∅ : Finset ℕ)) := fun i j => by simp
  have hirr : Irrefl (fun _ : ℕ => (∅ : Finset ℕ)) := fun i => by simp
  exact ⟨hsym, hirr,
    (creation_edge_birth_invariants ⟨3, 1, 2, 0, 0, 1⟩ (fun _ _ => 0) (fun _ _ => 0)
      (fun _ => 1) (fun _ _ => 0) (fun _ _ => 0) (fun _ => ∅) hsym hirr 3).1⟩

theorem wsChoices_spec {N i : ℕ} {nbrs : ℕ → Finset ℕ} (hne : wsChoices N i nbrs ≠ ∅)
    (pick j : ℕ) (hj : j ∈ nbrs i) :
    chooseFrom (wsChoices N i nbrs) pick ≠ i ∧
    chooseFrom (wsChoices N i nbrs) pick ∉ nbrs i ∧
    chooseFrom (wsChoices N i nbrs) pick ≠ j := by
  have hmem := chooseFrom_mem (Finset.nonempty_iff_ne_empty.2 hne) pick
  rw [wsChoices, Finset.mem_filter] at hmem
  exact ⟨hmem.2.1, hmem.2.2, fun h => hmem.2.2 (h ▸ hj)⟩

theorem wsRemove_notMem_self {f : ℕ → Finset ℕ} (h : ∀ y, y ∉ f y) (a b : ℕ) :
    ∀ y, y ∉ wsRemove a b f y := by
  intro y
  rw [wsRemove, Function.update_apply]
  split_ifs with hy
  · subst hy
    intro hmem
    exact h y (Finset.mem_sdiff.1 hmem).1
  · exact h y

theorem wsAdd_notMem_self {f : ℕ → Finset ℕ} (h : ∀ y, y ∉ f y) {a b : ℕ} (hab : a ≠ b) :
    ∀ y, y ∉ wsAdd a b f y := by
  intro y
  rw [wsAdd, Function.update_apply]
  split_ifs with hy
  · subst hy
    rw [Finset.mem_insert]
    rintro (h1 | h1)
    · exact hab h1
    · exact h y h1
  · exact h y

theorem rewireOne_irrefl {N i j pick : ℕ} {nbrs : ℕ → Finset ℕ} (h : Irrefl nbrs) :
    Irrefl (rewireOne N i j pick nbrs) := by
  rw [rewireOne]
  split
  · exact h
  · next hne =>
    have hnew : chooseFrom (wsChoices N i nbrs) pick ≠ i := by
      have hmem := chooseFrom_mem (Finset.nonempty_iff_ne_empty.2 hne) pick
      rw [wsChoices, Finset.mem_filter] at hmem
      exact hmem.2.1
    exact wsAdd_notMem_self
      (wsAdd_notMem_self
        (wsRemove_notMem_self (wsRemove_notMem_self h i j) j i) (Ne.symm hnew))
      hnew

theorem wsInner_irrefl (N : ℕ) (d : ℕ → Bool) (pick : ℕ → ℕ) (i : ℕ) :
    ∀ (l : List ℕ) (s : (ℕ → Finset ℕ) × ℕ), Irrefl s.1 →
      Irrefl (wsInner N d pick i l s).1 := by
  intro l
  induction l with
  | nil => intro s hs; exact hs
  | cons j rest ih =>
    intro s hs
    rw [wsInner]
    split
    · split
      · exact ih _ (rewireOne_irrefl hs)
      · exact ih _ hs
    · exact ih _ hs

theorem wsOuter_irrefl (N : ℕ) (d : ℕ → Bool) (pick : ℕ → ℕ) :
    ∀ (m : ℕ) (s : (ℕ → Finset ℕ) × ℕ), Irrefl s.1 →
      Irrefl (wsOuter N d pick m s).1 := by
  intro m
  induction m with
  | zero => intro s hs; exact hs
  | succ m ih =>
    intro s hs
    rw [wsOuter]
    exact wsInner_irrefl N d pick m _ _ (ih s hs)

theorem ring_lattice_irrefl {N k : ℕ} (hk : k < 2 * N) : Irrefl (ring_lattice N k) := by
  intro i
  rw [ring_lattice]
  split
  · next hiN =>
    have hN : 0 < N := by omega
    have hNz : (N : ℤ) ≠ 0 := by exact_mod_cast hN.ne'
    have hiNmod : (i : ℤ) % N = i :=
      Int.emod_eq_of_lt (by positivity) (by exact_mod_cast hiN)
    rw [Finset.mem_union]
    rintro (hmem | hmem) <;>
      rw [Finset.mem_image] at hmem <;>
      obtain ⟨j, hj, hval⟩ := hmem <;>
      rw [Finset.mem_Icc] at hj
    · have hjN : j < N := by omega
      have hnn : 0 ≤ ((i : ℤ) - j) % N := Int.emod_nonneg _ hNz
      have hm : ((i : ℤ) - j) % N = i := by
        rw [← Int.toNat_of_nonneg hnn]
        exact_mod_cast hval
      have hmeq : Int.ModEq N ((i : ℤ) - j) i := by
        rw [Int.ModEq, hm, hiNmod]
      have hdvd : (N : ℤ) ∣ (i : ℤ) - ((i : ℤ) - j) := Int.modEq_iff_dvd.1 hmeq
      have hdvd' : (N : ℤ) ∣ (j : ℤ) := by
        have : (i : ℤ) - ((i : ℤ) - j) = j := by ring
        rwa [this] at hdvd
      have : (N : ℤ) ≤ j := Int.le_of_dvd (by exact_mod_cast hj.1) hdvd'
      have : N ≤ j := by exact_mod_cast this
      omega
    · have hjN : j < N := by omega
      have hnn : 0 ≤ ((i : ℤ) + j) % N := Int.emod_nonneg _ hNz
      have hm : ((i : ℤ) + j) % N = i := by
        rw [← Int.toNat_of_nonneg hnn]
        exact_mod_cast hval
      have hmeq : Int.ModEq N ((i : ℤ) + j) i := by
        rw [Int.ModEq, hm, hiNmod]
      have hdvd : (N : ℤ) ∣ (i : ℤ) - ((i : ℤ) + j) := Int.modEq_iff_dvd.1 hmeq
      have hdvd' : (N : ℤ) ∣ (j : ℤ) := by
        have heq : (i : ℤ) - ((i : ℤ) + j) = -j := by ring
        rw [heq] at hdvd
        exact (dvd_neg.1 hdvd)
      have : (N : ℤ) ≤ j := Int.le_of_dvd (by exact_mod_cast hj.1) hdvd'
      have : N ≤ j := by exact_mod_cast this
      omega
  · exact Finset.not_mem_empty i

theorem setSym_diag {A : ℕ → ℕ → Bool} {i j : ℕ} (hij : i ≠ j) (b : Bool) (x : ℕ) :
    setSym A i j b x x = A x x := by
  rw [setSym, if_neg]
  rintro (⟨rfl, rfl⟩ | ⟨rfl, rfl⟩) <;> exact hij rfl

theorem mdlInner_diag {d : ℕ → Bool} {pickr : ℕ → ℕ → ℕ} {i : ℕ}
    (hpick : ∀ n i, pickr n i ≠ i) :
    ∀ (l : List ℕ) (s : (ℕ → ℕ → Bool) × ℕ × List (ℕ × ℕ × ℕ)),
      (∀ j ∈ l, j ≠ i) → (∀ x, s.1 x x = false) →
      ∀ x, (mdlInner d pickr i l s).1 x x = false := by
  intro l
  induction l with
  | nil => intro s _ hdiag; exact hdiag
  | cons j rest ih =>
    intro s hl hdiag
    rw [mdlInner]
    split
    · split
      · refine ih _ (fun j' hj' => hl j' (List.mem_cons_of_mem _ hj')) ?_
        intro x
        show setSym (setSym s.1 i j false) i (pickr s.2.1 i) true x x = false
        rw [setSym_diag (fun h => hpick s.2.1 i h.symm),
          setSym_diag (fun h => (hl j (List.mem_cons_self _ _)) h.symm)]
        exact hdiag x
      · exact ih _ (fun j' hj' => hl j' (List.mem_cons_of_mem _ hj')) hdiag
    · exact ih _ (fun j' hj' => hl j' (List.mem_cons_of_mem _ hj')) hdiag

theorem mdlOuter_diag {d : ℕ → Bool} {pickr : ℕ → ℕ → ℕ} {N : ℕ}
    (hpick : ∀ n i, pickr n i ≠ i) :
    ∀ (m : ℕ) (s : (ℕ → ℕ → Bool) × ℕ × List (ℕ × ℕ × ℕ)),
      (∀ x, s.1 x x = false) → ∀ x, (mdlOuter d pickr N m s).1 x x = false := by
  intro m
  induction m with
  | zero => intro s hdiag; exact hdiag
  | succ m ih =>
    intro s hdiag
    rw [mdlOuter]
    refine mdlInner_diag hpick _ _ ?_ (ih s hdiag)
    intro j hj
    have := List.mem_range'.1 hj
    omega

theorem mdlRing_diag {N kr : ℕ} (hkr : kr < 2 * N) (x : ℕ) : mdlRing N kr x x = false := by
  rw [mdlRing]
  rw [decide_eq_false_iff_not]
  rintro ⟨k, hkmem⟩
  rw [Finset.mem_filter, Finset.mem_Icc] at hkmem
  obtain ⟨hk, h⟩ := hkmem
  have hkN : k < N := by omega
  have hxk : (x + k) % N = x ∧ x < N := by
    rcases h with ⟨hx, he⟩ | ⟨hx, he⟩ <;> exact ⟨he.symm, hx⟩
  have hmod : (x + k) % N = x % N := by
    rw [hxk.1, Nat.mod_eq_of_lt hxk.2]
  have hdvd : N ∣ (x + k) - x := (Nat.modEq_iff_dvd' (by omega)).1 (Nat.ModEq.symm hmod)
  have : N ∣ k := by
    rwa [show x + k - x = k from by omega] at hdvd
  have := Nat.le_of_dvd (by omega) this
  omega

/-- C3 (amended): in `_watts_strogatz`, the rewire target is always different
from the source node, from all of the source's current neighbors — hence from
the removed neighbor — and the rewired graph never contains a self-loop; in
`make_default_layers`, the rejection-sampled target only avoids the source
node, so no self-loop is ever created, but (see the counterexample) the target
may coincide with the removed neighbor or an existing neighbor. -/
theorem small_world_rewire_no_self_loop :
    (∀ (N i j pick : ℕ) (nbrs : ℕ → Finset ℕ), wsChoices N i nbrs ≠ ∅ → j ∈ nbrs i →
      (chooseFrom (wsChoices N i nbrs) pick ≠ i ∧
       chooseFrom (wsChoices N i nbrs) pick ∉ nbrs i ∧
       chooseFrom (wsChoices N i nbrs) pick ≠ j)) ∧
    (∀ (N k : ℕ) (d : ℕ → Bool) (pick : ℕ → ℕ), k < 2 * N →
      Irrefl (watts_strogatz N k d pick)) ∧
    (∀ (N kr : ℕ) (d : ℕ → Bool) (pickr : ℕ → ℕ → ℕ),
      (∀ n i, pickr n i ≠ i) → kr < 2 * N →
      ∀ x, (make_default_layer_rewire N kr d pickr).1 x x = false) := by
  refine ⟨fun N i j pick nbrs hne hj => wsChoices_spec hne pick j hj,
    fun N k d pick hk => ?_, fun N kr d pickr hpick hkr x => ?_⟩
  · exact wsOuter_irrefl N d pick N _ (ring_lattice_irrefl hk)
  · exact mdlOuter_diag hpick N _ (fun y => mdlRing_diag hkr y) x

/-- C3 counterexample: with 4 nodes, ring degree 2, rewire probability 1 (the
decision stream always fires) and a target stream whose rejection loop returns
`1` for source `0`, the very first rewire removes edge `(0, 1)` and re-adds it
onto the same pair: the log records `(0, 1, 1)` with the new endpoint equal to
the removed neighbor. -/
theorem make_default_layers_readds_removed_edge :
    (∀ n i, (fun _ i => if i = 1 then 0 else 1 : ℕ → ℕ → ℕ) n i ≠ i) ∧
    (0, 1, 1) ∈ (make_default_layer_rewire 4 2 (fun _ => true)
      (fun _ i => if i = 1 then 0 else 1)).2.2 := by
  constructor
  · intro n i
    dsimp only
    split_ifs with h <;> omega
  · decide

/-- C3 witness: with 3 nodes, source `0` and current neighbor set `{1}`, the
candidate pool is nonempty and the chosen rewire target avoids the source, the
removed neighbor and all existing neighbors. -/
theorem small_world_rewire_no_self_loop_witness :
    chooseFrom (wsChoices 3 0 (fun _ => {1})) 0 ≠ 0 ∧
    chooseFrom (wsChoices 3 0 (fun _ => {1})) 0 ∉ (fun _ => ({1} : Finset ℕ)) 0 ∧
    chooseFrom (wsChoices 3 0 (fun _ => {1})) 0 ≠ 1 := by
  have h2mem : 2 ∈ wsChoices 3 0 (fun _ => ({1} : Finset ℕ)) := by
    rw [wsChoices, Finset.mem_filter]
    exact ⟨by decide, by decide, by decide⟩
  have h1 : wsChoices 3 0 (fun _ => ({1} : Finset ℕ)) ≠ ∅ := by
    intro h
    rw [h] at h2mem
    exact absurd h2mem (Finset.not_mem_empty 2)
  exact small_world_rewire_no_self_loop.1 3 0 1 0 (fun _ => {1}) h1 (by decide)

/-- C4: the spec's reproducibility claim fails on the code — with every
seeded-generator-derived input held fixed (same configuration and seed), the
next phase still depends on the unseeded global NumPy state consumed by the
noise draw: two values of that state give different outputs for the default
`noise_std = 0.03 > 0`. -/
theorem euler_step_multilayer_global_state_divergence :
    euler_step_multilayer 1 1 (fun _ _ => 0) (fun _ => 0) (fun _ => 0) (fun _ _ _ => 0)
        0 (3 / 100) (1 / 20) (fun _ _ => 0) 0 0
      ≠ euler_step_multilayer 1 1 (fun _ _ => 0) (fun _ => 0) (fun _ => 0) (fun _ _ _ => 0)
        0 (3 / 100) (1 / 20) (fun _ _ => 1) 0 0 := by
  have hpi : (3 : ℝ) < π := Real.pi_gt_three
  have heval : ∀ g : ℕ → ℕ → ℝ,
      euler_step_multilayer 1 1 (fun _ _ => 0) (fun _ => 0) (fun _ => 0) (fun _ _ _ => 0)
        0 (3 / 100) (1 / 20) g 0 0 = pymod ((1 / 20) * g 0 0) (2 * π) := by
    intro g
    rw [euler_step_multilayer]
    simp only [Finset.sum_range_one, Complex.ofReal_zero, zero_mul, Complex.exp_zero,
      Nat.cast_one, div_one, Complex.arg_one, sub_zero, zero_sub, Real.sin_zero, mul_zero,
      zero_add, add_zero, sub_self]
    rw [if_pos (by norm_num : (3 : ℝ) / 100 > 0)]
  rw [heval, heval]
  have hL : pymod ((1 / 20 : ℝ) * 0) (2 * π) = 0 := by
    rw [mul_zero, pymod]
    rw [show (0 : ℝ) / (2 * π) = 0 from by rw [zero_div]]
    simp
  have hR : pymod ((1 / 20 : ℝ) * 1) (2 * π) = 1 / 20 := by
    rw [mul_one, pymod]
    have hfloor : ⌊(1 / 20 : ℝ) / (2 * π)⌋ = 0 := by
      rw [Int.floor_eq_zero_iff]
      constructor
      · positivity
      · rw [div_lt_one (by positivity)]
        linarith
    rw [hfloor]
    simp
  rw [hL, hR]
  norm_num
